import Mathlib

/-!
# Hook.js (tapable): tap registry, ordering, interceptors, lazy compilation

A shallow embedding of `src/lib/Hook.js`.

* JavaScript values are modelled by `Prim`, `Atom` and `Val`: primitives (numbers are the
  integer-valued ones), function references, arrays of primitives, and plain objects whose
  property values are atoms. Objects are association lists in key insertion order.
* A hook is a record of the fields the constructor sets. Methods take the hook and return the
  hook after the call together with the exception thrown, if any (`Outcome`): a JavaScript
  exception does not undo the writes made before it.
* `Hook.log` is a ghost field that is not in the source: it records, in order, every call the
  hook makes into code it does not own (an interceptor's `register`, `deprecateContext`,
  `compile`), so that statements of the form "is called exactly once" can be written down.
* `interceptor.register` is a total function on values (it neither throws nor re-enters the hook).
-/

namespace Tapable

/-! ## Values -/

/-- Primitive values. `num` holds the integer-valued numbers. -/
inductive Prim where
  | undefined
  | null
  | bool (b : Bool)
  | num (n : Int)
  | str (s : String)
  deriving DecidableEq, Repr

/-- Values that can be stored under a property: a primitive, a function (identified by `id`,
carrying its `name` property) or an array of primitives. -/
inductive Atom where
  | prim (p : Prim)
  | fn (id : Nat) (name : String)
  | arr (xs : List Prim)
  deriving DecidableEq, Repr

/-- Values: an atom or a plain object (own enumerable properties, in insertion order). -/
inductive Val where
  | atom (a : Atom)
  | obj (fields : List (String × Atom))
  deriving DecidableEq, Repr

/-- The results of the `typeof` operator. -/
inductive TypeTag where
  | undefined
  | object
  | boolean
  | number
  | string
  | function
  deriving DecidableEq, Repr

/-- The value `undefined` as an atom. -/
abbrev Atom.undefined : Atom := .prim .undefined

/-- The value `undefined`. -/
abbrev Val.undefined : Val := .atom (.prim .undefined)

/-- The value `null`. -/
abbrev Val.null : Val := .atom (.prim .null)

/-- The operator `typeof a`. -/
def Atom.typeof : Atom → TypeTag
  | .prim .undefined => .undefined
  | .prim .null => .object
  | .prim (.bool _) => .boolean
  | .prim (.num _) => .number
  | .prim (.str _) => .string
  | .fn _ _ => .function
  | .arr _ => .object

/-- The operator `typeof v`. -/
def Val.typeof : Val → TypeTag
  | .atom a => a.typeof
  | .obj _ => .object

/-- ToBoolean, as used by `||` and `if`. -/
def Atom.truthy : Atom → Bool
  | .prim .undefined => false
  | .prim .null => false
  | .prim (.bool b) => b
  | .prim (.num n) => n != 0
  | .prim (.str s) => s != ""
  | .fn _ _ => true
  | .arr _ => true

/-- The property read `v.k`, for the keys that Hook.js reads (`name`, `before`, `stage`,
`context`). `none` is the TypeError of reading a property of `undefined` or `null`. A key that
an object does not own, and each of these keys on a primitive or an array, reads `undefined`;
a function owns `name`. -/
def Val.get (v : Val) (k : String) : Option Atom :=
  match v with
  | .atom (.prim .undefined) => none
  | .atom (.prim .null) => none
  | .atom (.fn _ nm) => some (if k = "name" then .prim (.str nm) else .undefined)
  | .atom _ => some .undefined
  | .obj fields => some ((fields.lookup k).getD .undefined)

/-- The comparison `a > n` against a number `n`. For a number, a boolean, `null`, `undefined`
and a function the conversion ToNumber is fixed (a function and `undefined` give NaN, which
compares false). For a string or an array the conversion goes through the string-to-number
grammar of the language, which is not part of this repository: it is the argument
`coerceGt`. -/
def Atom.gt (coerceGt : Atom → Int → Bool) (a : Atom) (n : Int) : Bool :=
  match a with
  | .prim (.num m) => decide (m > n)
  | .prim (.bool b) => decide ((if b then 1 else 0) > n)
  | .prim .null => decide (0 > n)
  | .prim .undefined => false
  | .fn _ _ => false
  | .prim (.str s) => coerceGt (.prim (.str s)) n
  | .arr xs => coerceGt (.arr xs) n

/-- The white space and line terminators that `String.prototype.trim` removes. -/
def isWhiteSpace (c : Char) : Bool :=
  let n := c.toNat
  n == 0x09 || n == 0x0A || n == 0x0B || n == 0x0C || n == 0x0D || n == 0x20 || n == 0xA0 ||
  n == 0x1680 || (0x2000 ≤ n && n ≤ 0x200A) || n == 0x2028 || n == 0x2029 || n == 0x202F ||
  n == 0x205F || n == 0x3000 || n == 0xFEFF

/-- The method `s.trim()`. -/
def trim (s : String) : String :=
  String.mk ((s.toList.dropWhile isWhiteSpace).reverse.dropWhile isWhiteSpace).reverse

/-! ## Arrays, sets and objects -/

/-- The array read `xs[i]`: `undefined` past the end. -/
def getAt (xs : List Val) (i : Nat) : Val :=
  xs.getD i .undefined

/-- The array write `xs[i] = v`: writing at the length appends, writing past it leaves holes
(which read `undefined`). -/
def setAt (xs : List Val) (i : Nat) (v : Val) : List Val :=
  if i < xs.length then xs.set i v
  else xs ++ List.replicate (i - xs.length) .undefined ++ [v]

/-- A `Set` of primitives: its elements without repetition, in insertion order. -/
abbrev JSSet := List Prim

/-- The constructor `new Set(xs)`: adds the elements one by one, skipping those present. -/
def JSSet.ofArray (xs : List Prim) : JSSet :=
  xs.foldl (fun s a => if a ∈ s then s else s ++ [a]) []

/-- The method `s.has(a)`. A function or an array is never the same value as a primitive. -/
def JSSet.has (s : JSSet) (a : Atom) : Bool :=
  match a with
  | .prim p => decide (p ∈ s)
  | _ => false

/-- The method `s.delete(a)`. -/
def JSSet.delete (s : JSSet) (a : Atom) : JSSet :=
  match a with
  | .prim p => s.filter (fun q => q ≠ p)
  | _ => s

/-- The property `s.size`. -/
def JSSet.size (s : JSSet) : Nat := s.length

/-- The property write `o[k] = v` on a plain object: an existing key keeps its place. -/
def setKey (fields : List (String × Atom)) (k : String) (v : Atom) : List (String × Atom) :=
  if fields.any (fun kv => kv.1 == k) then
    fields.map (fun kv => if kv.1 = k then (k, v) else kv)
  else fields ++ [(k, v)]

/-- The own enumerable string-keyed properties that `Object.assign` copies from a source:
those of an object, the indices of an array or of a string, none of another primitive or of a
function. -/
def ownEnumerable : Val → List (String × Atom)
  | .obj fields => fields
  | .atom (.arr xs) => xs.enum.map (fun ix => (toString ix.1, Atom.prim ix.2))
  | .atom (.prim (.str s)) =>
    s.toList.enum.map (fun ic => (toString ic.1, Atom.prim (.str (String.singleton ic.2))))
  | .atom _ => []

/-- The call `Object.assign(target, src)` on a fresh plain object `target`. -/
def objectAssign (target : List (String × Atom)) (src : Val) : List (String × Atom) :=
  (ownEnumerable src).foldl (fun t kv => setKey t kv.1 kv.2) target

/-! ## The hook -/

/-- An interceptor: its `register` function when present, and its other slots, which the hook
passes through without looking at them. -/
structure Interceptor where
  register : Option (Val → Val)
  rest : List (String × Atom)

/-- What `compile` returns: a function from the call arguments to the result of the call. -/
abbrev Callable := List Val → Val

/-- The argument of `compile`. -/
structure CompileOptions where
  taps : List Val
  interceptors : List Interceptor
  args : List String
  type : String

/-- The functions a call slot can hold: one of the three delegates declared at the top of
Hook.js, or a function that `compile` returned. -/
inductive Callee where
  | CALL_DELEGATE
  | CALL_ASYNC_DELEGATE
  | PROMISE_DELEGATE
  | compiled (f : Callable)

/-- Calls that leave the hook (ghost): `interceptors[i].register(arg)`, `deprecateContext()`,
`compile(options)`. -/
inductive Event where
  | register (i : Nat) (arg : Val)
  | deprecateContext
  | compile (options : CompileOptions)

/-- The exceptions: `new Error(message)`, and the TypeError of a property read on `undefined`
or `null`. -/
inductive Exn where
  | Error (message : String)
  | TypeError
  deriving DecidableEq, Repr

/-- The fields of a `Hook` instance (`_x`, which Hook.js only initialises, is left out) and the
ghost `log`. The field `compile` is the method that a concrete hook class overrides: given
its argument it returns a callable or throws. -/
structure Hook where
  _args : List String
  name : Option String
  taps : List Val
  interceptors : List Interceptor
  compile : CompileOptions → Except Exn Callable
  _call : Callee
  call : Callee
  _callAsync : Callee
  callAsync : Callee
  _promise : Callee
  promise : Callee
  log : List Event

/-- The hook after a method call, and the exception the call threw, if any. -/
structure Outcome where
  hook : Hook
  thrown : Option Exn

/-- The constructor `new Hook(args, name)` of the base class, whose `compile` is abstract: it
throws. -/
def Hook.new (args : List String) (name : Option String) : Hook where
  _args := args
  name := name
  taps := []
  interceptors := []
  compile := fun _ => .error (.Error "Abstract: should be overridden")
  _call := .CALL_DELEGATE
  call := .CALL_DELEGATE
  _callAsync := .CALL_ASYNC_DELEGATE
  callAsync := .CALL_ASYNC_DELEGATE
  _promise := .PROMISE_DELEGATE
  promise := .PROMISE_DELEGATE
  log := []

/-- The method `_resetCompilation()`. -/
def _resetCompilation (h : Hook) : Hook :=
  { h with call := h._call, callAsync := h._callAsync, promise := h._promise }

/-- The `while (i > 0)` loop of `_insert`, entered with the counter at its first argument.
Returns the array after the loop and the final value of `i`, or `none` for `i` when a property
read on the scanned element throws (the shift `taps[i + 1] = x` before it has been done). -/
def insertLoop (coerceGt : Atom → Int → Bool) (stage : Int) :
    Nat → Option JSSet → List Val → List Val × Option Nat
  | 0, _, taps => (taps, some 0)
  | i + 1, before, taps =>
    let x := getAt taps i
    let taps := setAt taps (i + 1) x
    match x.get "stage" with
    | none => (taps, none)
    | some s =>
      let xStage := if s.truthy then s else .prim (.num 0)
      match before with
      | some b =>
        match x.get "name" with
        | none => (taps, none)
        | some nm =>
          if b.has nm then insertLoop coerceGt stage i (some (b.delete nm)) taps
          else if b.size > 0 then insertLoop coerceGt stage i (some b) taps
          else if xStage.gt coerceGt stage then insertLoop coerceGt stage i (some b) taps
          else (taps, some (i + 1))
      | none =>
        if xStage.gt coerceGt stage then insertLoop coerceGt stage i none taps
        else (taps, some (i + 1))

/-- The set `before` that `_insert` builds from `item.before`: `none` is `undefined`. -/
def beforeSet (b : Atom) : Option JSSet :=
  match b with
  | .prim (.str s) => some [.str s]
  | .arr xs => some (JSSet.ofArray xs)
  | _ => none

/-- The number `stage` that `_insert` computes from `item.stage`. -/
def stageOf (s : Atom) : Int :=
  match s with
  | .prim (.num n) => n
  | _ => 0

/-- The method `_insert(item)`. -/
def _insert (coerceGt : Atom → Int → Bool) (h : Hook) (item : Val) : Outcome :=
  let h := _resetCompilation h
  match item.get "before", item.get "stage" with
  | some b, some s =>
    match insertLoop coerceGt (stageOf s) h.taps.length (beforeSet b) h.taps with
    | (taps, none) => ⟨{ h with taps := taps }, some .TypeError⟩
    | (taps, some i) => ⟨{ h with taps := setAt taps i item }, none⟩
  | _, _ => ⟨h, some .TypeError⟩

/-- The `for ... of` loop of `_runRegisterInterceptors` over the interceptors that remain, the
first of which has index `i`. Returns the final `options` and the log. -/
def registerLoop : List Interceptor → Nat → Val → List Event → Val × List Event
  | [], _, options, log => (options, log)
  | interceptor :: remaining, i, options, log =>
    match interceptor.register with
    | some register =>
      let newOptions := register options
      let log := log ++ [Event.register i options]
      if newOptions ≠ Val.undefined then registerLoop remaining (i + 1) newOptions log
      else registerLoop remaining (i + 1) options log
    | none => registerLoop remaining (i + 1) options log

/-- The method `_runRegisterInterceptors(options)`: the returned options and the hook (only
its log changes). -/
def _runRegisterInterceptors (h : Hook) (options : Val) : Val × Hook :=
  let r := registerLoop h.interceptors 0 options h.log
  (r.1, { h with log := r.2 })

/-- The method `_tap(type, options, fn)`. -/
def _tap (coerceGt : Atom → Int → Bool) (h : Hook) (type : String) (options : Val) (fn : Atom) :
    Outcome :=
  let normalized : Option Val :=
    match options with
    | .atom (.prim (.str s)) => some (.obj [("name", .prim (.str (trim s)))])
    | _ => if options.typeof ≠ .object ∨ options = Val.null then none else some options
  match normalized with
  | none => ⟨h, some (.Error "Invalid tap options")⟩
  | some options =>
    match options.get "name", options.get "context" with
    | some name, some context =>
      if name.typeof ≠ .string ∨ name = .prim (.str "") then
        ⟨h, some (.Error "Missing name for tap")⟩
      else
        let h := if context.typeof ≠ .undefined then
          { h with log := h.log ++ [Event.deprecateContext] } else h
        let options := Val.obj (objectAssign [("type", .prim (.str type)), ("fn", fn)] options)
        let r := _runRegisterInterceptors h options
        _insert coerceGt r.2 r.1
    | _, _ => ⟨h, some .TypeError⟩

/-- The method `tap(options, fn)`. -/
def tap (coerceGt : Atom → Int → Bool) (h : Hook) (options : Val) (fn : Atom) : Outcome :=
  _tap coerceGt h "sync" options fn

/-- The method `tapAsync(options, fn)`. -/
def tapAsync (coerceGt : Atom → Int → Bool) (h : Hook) (options : Val) (fn : Atom) : Outcome :=
  _tap coerceGt h "async" options fn

/-- The method `tapPromise(options, fn)`. -/
def tapPromise (coerceGt : Atom → Int → Bool) (h : Hook) (options : Val) (fn : Atom) : Outcome :=
  _tap coerceGt h "promise" options fn

/-- The method `isUsed()`. -/
def isUsed (h : Hook) : Bool :=
  h.taps.length > 0 || h.interceptors.length > 0

/-- The `for` loop of `intercept`, entered with the counter at `i`; `k` is the index of the
interceptor in `interceptors` (for the log). The first argument bounds the number of
iterations (see `interceptLoop_fuel`: the array length is enough, and more changes nothing). -/
def interceptLoop (register : Val → Val) (k : Nat) :
    Nat → Nat → List Val → List Event → List Val × List Event
  | 0, _, taps, log => (taps, log)
  | fuel + 1, i, taps, log =>
    if i < taps.length then
      let x := getAt taps i
      interceptLoop register k fuel (i + 1) (setAt taps i (register x))
        (log ++ [Event.register k x])
    else (taps, log)

/-- The method `intercept(interceptor)`. The shallow copy `Object.assign({}, interceptor)` of
a record value is the value itself. -/
def intercept (h : Hook) (interceptor : Interceptor) : Hook :=
  let h := _resetCompilation h
  let k := h.interceptors.length
  let h := { h with interceptors := h.interceptors ++ [interceptor] }
  match interceptor.register with
  | some register =>
    let r := interceptLoop register k h.taps.length 0 h.taps h.log
    { h with taps := r.1, log := r.2 }
  | none => h

/-- The method `_createCall(type)`: what `compile` returns or throws for the current taps,
interceptors and arguments, and the hook with the call logged. -/
def _createCall (h : Hook) (type : String) : Except Exn Callable × Hook :=
  let options : CompileOptions :=
    { taps := h.taps, interceptors := h.interceptors, args := h._args, type := type }
  (h.compile options, { h with log := h.log ++ [Event.compile options] })

/-- The hook after an invocation, and what the invocation returned or threw. -/
structure CallOutcome where
  hook : Hook
  result : Except Exn Val

/-- The call `callee(...args)` of the function held by a call slot, with the hook as `this`.
A delegate stores the result of `_createCall` in its own slot and calls it; when
`_createCall` throws, the slot is not written. A compiled callable is called directly. -/
def Callee.invoke (callee : Callee) (h : Hook) (args : List Val) : CallOutcome :=
  match callee with
  | .CALL_DELEGATE =>
    match _createCall h "sync" with
    | (.error e, h) => ⟨h, .error e⟩
    | (.ok f, h) => ⟨{ h with call := .compiled f }, .ok (f args)⟩
  | .CALL_ASYNC_DELEGATE =>
    match _createCall h "async" with
    | (.error e, h) => ⟨h, .error e⟩
    | (.ok f, h) => ⟨{ h with callAsync := .compiled f }, .ok (f args)⟩
  | .PROMISE_DELEGATE =>
    match _createCall h "promise" with
    | (.error e, h) => ⟨h, .error e⟩
    | (.ok f, h) => ⟨{ h with promise := .compiled f }, .ok (f args)⟩
  | .compiled f => ⟨h, .ok (f args)⟩

/-- The invocation `hook.call(...args)`. -/
def call (h : Hook) (args : List Val) : CallOutcome :=
  h.call.invoke h args

/-- The invocation `hook.callAsync(...args)`. -/
def callAsync (h : Hook) (args : List Val) : CallOutcome :=
  h.callAsync.invoke h args

/-- The invocation `hook.promise(...args)`. -/
def promise (h : Hook) (args : List Val) : CallOutcome :=
  h.promise.invoke h args

/-- The function `mergeOptions` of `withOptions(options)`:
`Object.assign({}, options, typeof opt === "string" ? { name: opt } : opt)`. -/
def mergeOptions (options opt : Val) : Val :=
  .obj (objectAssign (objectAssign [] options)
    (match opt with
      | .atom (.prim (.str s)) => .obj [("name", .prim (.str s))]
      | _ => opt))

/-- The object that `withOptions(options)` returns: the `name` copied from the hook, and
`options`, which its methods close over. The methods also close over the hook itself, which
the methods below take as an argument. -/
structure View where
  name : Option String
  options : Val

/-- The method `withOptions(options)` of the hook. -/
def withOptions (h : Hook) (options : Val) : View :=
  ⟨h.name, options⟩

/-- The method `tap` of a view. -/
def View.tap (coerceGt : Atom → Int → Bool) (v : View) (h : Hook) (opt : Val) (fn : Atom) :
    Outcome :=
  Tapable.tap coerceGt h (mergeOptions v.options opt) fn

/-- The method `tapAsync` of a view. -/
def View.tapAsync (coerceGt : Atom → Int → Bool) (v : View) (h : Hook) (opt : Val) (fn : Atom) :
    Outcome :=
  Tapable.tapAsync coerceGt h (mergeOptions v.options opt) fn

/-- The method `tapPromise` of a view. -/
def View.tapPromise (coerceGt : Atom → Int → Bool) (v : View) (h : Hook) (opt : Val)
    (fn : Atom) : Outcome :=
  Tapable.tapPromise coerceGt h (mergeOptions v.options opt) fn

/-- The method `intercept` of a view. -/
def View.intercept (_v : View) (h : Hook) (interceptor : Interceptor) : Hook :=
  Tapable.intercept h interceptor

/-- The method `isUsed` of a view. -/
def View.isUsed (_v : View) (h : Hook) : Bool :=
  Tapable.isUsed h

/-- The method `withOptions` of a view. -/
def View.withOptions (v : View) (h : Hook) (opt : Val) : View :=
  Tapable.withOptions h (mergeOptions v.options opt)

/-! ## Notions used in the statements -/

/-- The values on which a property read throws: `undefined` and `null`. -/
def Val.isNullish : Val → Bool
  | .atom (.prim .undefined) => true
  | .atom (.prim .null) => true
  | _ => false

/-- The name the loop reads from a scanned element: `x.name`. -/
def nameOf (x : Val) : Atom := (x.get "name").getD .undefined

/-- The stage the loop computes for a scanned element: `x.stage || 0`. -/
def xStageOf (x : Val) : Atom :=
  let s := (x.get "stage").getD .undefined
  if s.truthy then s else .prim (.num 0)

/-- Whether the loop body, run on `x` with the set `before`, goes on to the next element. -/
def continues (coerceGt : Atom → Int → Bool) (stage : Int) (before : Option JSSet) (x : Val) :
    Bool :=
  (match before with
    | some s => decide (s.size > 0)
    | none => false) || (xStageOf x).gt coerceGt stage

/-- The set `before` after the loop body has run on the elements of `xs`, last to first. -/
def beforeAfter (before : Option JSSet) (xs : List Val) : Option JSSet :=
  xs.foldr (fun x b => b.map (fun s => s.delete (nameOf x))) before

/-- The set `before` that `_insert` builds for `item`. -/
def itemBefore (item : Val) : Option JSSet :=
  beforeSet ((item.get "before").getD .undefined)

/-- The number `stage` that `_insert` computes for `item`. -/
def itemStage (item : Val) : Int :=
  stageOf ((item.get "stage").getD .undefined)

/-- The calls `_insert(t)` for the records `t` of a list, in order, up to the first one that
throws. -/
def insertAll (coerceGt : Atom → Int → Bool) (h : Hook) : List Val → Outcome
  | [] => ⟨h, none⟩
  | item :: rest =>
    match (_insert coerceGt h item).thrown with
    | none => insertAll coerceGt (_insert coerceGt h item).hook rest
    | some e => ⟨(_insert coerceGt h item).hook, some e⟩

/-- A tap record that has no `before` and whose `stage` is absent or an integer. -/
def Val.isStageRecord : Val → Bool
  | .obj fields =>
    (fields.lookup "before").isNone &&
      (match fields.lookup "stage" with
        | none => true
        | some (.prim (.num _)) => true
        | some _ => false)
  | .atom _ => false

/-- A tap record whose `stage` is absent or 0. -/
def Val.hasStageZero : Val → Bool
  | .obj fields =>
    match fields.lookup "stage" with
    | none => true
    | some (.prim (.num n)) => n == 0
    | some _ => false
  | .atom _ => false

/-- The hook after the deprecation check of `_tap` on the options object `fields`: the call
`deprecateContext()` is logged when `options.context` is not `undefined`. -/
def warnContext (h : Hook) (fields : List (String × Atom)) : Hook :=
  if (((Val.obj fields).get "context").getD .undefined).typeof ≠ .undefined then
    { h with log := h.log ++ [Event.deprecateContext] }
  else h

/-- The merged record of `_tap`: `Object.assign({ type, fn }, options)` for the options
object `fields`. -/
def mergedRecord (type : String) (fn : Atom) (fields : List (String × Atom)) : Val :=
  .obj (objectAssign [("type", .prim (.str type)), ("fn", fn)] (.obj fields))

/-- The options pass the two checks at the head of `_tap`, and `fields` is the options object
after them: `{ name: options.trim() }` for a string whose trimmed value is not empty, the
object itself for an object whose `name` is a non-empty string. -/
def PassesChecks (options : Val) (fields : List (String × Atom)) : Prop :=
  (∃ s, options = .atom (.prim (.str s)) ∧ trim s ≠ "" ∧
      fields = [("name", .prim (.str (trim s)))]) ∨
    (options = .obj fields ∧ ∃ s, fields.lookup "name" = some (.prim (.str s)) ∧ s ≠ "")

/-- The register chain in the words of the specification (`applyRegisterChain`): the candidate
is folded through the interceptors in attachment order; a value returned by `register`
replaces the value carried, and an interceptor without `register`, or whose `register` returns
`undefined`, carries the previous value forward. -/
def applyRegisterChain (interceptors : List Interceptor) (candidate : Val) : Val :=
  interceptors.foldl
    (fun carried interceptor =>
      match interceptor.register with
      | none => carried
      | some register => if register carried = Val.undefined then carried else register carried)
    candidate

/-- The calls of `register` that the specification's chain stands for: for each position `j`
of the list whose interceptor has a `register` function, one call, on the value carried
through the interceptors in front of it. `i` is the index of the first interceptor of the
list. -/
def registerCalls (i : Nat) (interceptors : List Interceptor) (candidate : Val) : List Event :=
  (List.range interceptors.length).filterMap (fun j =>
    match interceptors[j]? with
    | some interceptor =>
      if interceptor.register.isSome then
        some (Event.register (i + j) (applyRegisterChain (interceptors.take j) candidate))
      else none
    | none => none)

/-- Whether a log entry is a call of `interceptors[j].register`. -/
def Event.isRegisterOf (j : Nat) : Event → Bool
  | .register i _ => i == j
  | _ => false

/-- The constructor of a class that extends `Hook` and overrides `compile`. -/
def Hook.newWith (compile : CompileOptions → Except Exn Callable) (args : List String)
    (name : Option String) : Hook :=
  { Hook.new args name with compile := compile }

/-- The public operations on a hook: the three registrations, `intercept`, and the three
invocations. -/
inductive Op where
  | tap (options : Val) (fn : Atom)
  | tapAsync (options : Val) (fn : Atom)
  | tapPromise (options : Val) (fn : Atom)
  | intercept (interceptor : Interceptor)
  | call (args : List Val)
  | callAsync (args : List Val)
  | promise (args : List Val)

/-- The hook after an operation (whether or not it threw). -/
def Op.apply (coerceGt : Atom → Int → Bool) (op : Op) (h : Hook) : Hook :=
  match op with
  | .tap options fn => (Tapable.tap coerceGt h options fn).hook
  | .tapAsync options fn => (Tapable.tapAsync coerceGt h options fn).hook
  | .tapPromise options fn => (Tapable.tapPromise coerceGt h options fn).hook
  | .intercept interceptor => Tapable.intercept h interceptor
  | .call args => (Tapable.call h args).hook
  | .callAsync args => (Tapable.callAsync h args).hook
  | .promise args => (Tapable.promise h args).hook

/-- Whether an operation is a successful registration: a `tap`, `tapAsync` or `tapPromise`
that does not throw, or an `intercept`. -/
def Op.registers (coerceGt : Atom → Int → Bool) (op : Op) (h : Hook) : Bool :=
  match op with
  | .tap options fn => (Tapable.tap coerceGt h options fn).thrown.isNone
  | .tapAsync options fn => (Tapable.tapAsync coerceGt h options fn).thrown.isNone
  | .tapPromise options fn => (Tapable.tapPromise coerceGt h options fn).thrown.isNone
  | .intercept _ => true
  | .call _ => false
  | .callAsync _ => false
  | .promise _ => false

/-- The hook after a sequence of operations, run in order. -/
def run (coerceGt : Atom → Int → Bool) (h : Hook) : List Op → Hook
  | [] => h
  | op :: rest => run coerceGt (op.apply coerceGt h) rest

/-- The number of successful registrations in a sequence of operations run from `h`. -/
def registrations (coerceGt : Atom → Int → Bool) (h : Hook) : List Op → Nat
  | [] => 0
  | op :: rest =>
    (if op.registers coerceGt h then 1 else 0) + registrations coerceGt (op.apply coerceGt h) rest

/-- The argument that `_createCall(type)` hands to `compile` on the hook `h`. -/
def compileOptions (h : Hook) (type : String) : CompileOptions :=
  { taps := h.taps, interceptors := h.interceptors, args := h._args, type := type }

/-- The delegate fields `_call`, `_callAsync` and `_promise` hold what the constructor put
there. -/
def Hook.Intact (h : Hook) : Prop :=
  h._call = .CALL_DELEGATE ∧ h._callAsync = .CALL_ASYNC_DELEGATE ∧ h._promise = .PROMISE_DELEGATE

/-- A call slot is coherent for its delegate and its type: it holds the delegate ("not yet
compiled"), or it holds exactly the callable that `compile` returns for the current taps,
interceptors and arguments and that type. -/
def SlotCoherent (h : Hook) (slot delegate : Callee) (type : String) : Prop :=
  slot = delegate ∨ ∃ f, slot = .compiled f ∧ h.compile (compileOptions h type) = .ok f

/-- Cache coherence of a hook: the delegate fields are intact and each of the three call
slots is coherent. -/
def Hook.Coherent (h : Hook) : Prop :=
  h.Intact ∧ SlotCoherent h h.call .CALL_DELEGATE "sync" ∧
    SlotCoherent h h.callAsync .CALL_ASYNC_DELEGATE "async" ∧
    SlotCoherent h h.promise .PROMISE_DELEGATE "promise"

/-- Whether a log entry is a call of `compile`. -/
def Event.isCompile : Event → Bool
  | .compile _ => true
  | _ => false

/-- The keys of a list of properties, each once, in the order of their first appearance. -/
def firstKeys (l : List (String × Atom)) : List String :=
  l.foldl (fun ks kv => if kv.1 ∈ ks then ks else ks ++ [kv.1]) []

/-- The value that the last entry for the key `k` gives it (`undefined` when there is none). -/
def lastValue (l : List (String × Atom)) (k : String) : Atom :=
  (l.reverse.lookup k).getD .undefined

/-- The merge of option objects in the words of the specification: the objects are laid one
over the other in order, so the merged object owns every key that one of them owns (in the
order of first appearance), with the value of the last object that owns it: on a key
collision the later object wins. -/
def mergeRecords (objs : List (List (String × Atom))) : List (String × Atom) :=
  (firstKeys objs.flatten).map (fun k => (k, lastValue objs.flatten k))

/-- A calling convention of the hook: its entry point, the call slot the entry point is read
from, the delegate that the slot holds while "not yet compiled", and the type handed to
`compile`. -/
structure Convention where
  invoke : Hook → List Val → CallOutcome
  slot : Hook → Callee
  delegate : Callee
  type : String

/-- The three calling conventions: `call` with `CALL_DELEGATE` and "sync", `callAsync` with
`CALL_ASYNC_DELEGATE` and "async", `promise` with `PROMISE_DELEGATE` and "promise". -/
def conventions : List Convention :=
  [⟨call, Hook.call, .CALL_DELEGATE, "sync"⟩,
    ⟨callAsync, Hook.callAsync, .CALL_ASYNC_DELEGATE, "async"⟩,
    ⟨promise, Hook.promise, .PROMISE_DELEGATE, "promise"⟩]

/-- Every field of `h'` other than the three call slots and the log is what it is in `h`. -/
def Hook.SameRegistry (h h' : Hook) : Prop :=
  h'._args = h._args ∧ h'.name = h.name ∧ h'.taps = h.taps ∧
    h'.interceptors = h.interceptors ∧ h'.compile = h.compile ∧ h'._call = h._call ∧
    h'._callAsync = h._callAsync ∧ h'._promise = h._promise

/-- The hook states that can arise: a hook built by the constructor of a class that overrides
`compile` (or by the base class, whose `compile` throws), after any sequence of operations,
successful or not. -/
def Reachable (coerceGt : Atom → Int → Bool) (h : Hook) : Prop :=
  ∃ compile args name ops, h = run coerceGt (Hook.newWith compile args name) ops

/-! ## Theorems -/

/-! ### The loop of `_insert` -/

theorem get_of_not_nullish {x : Val} (hx : x.isNullish = false) (k : String) :
    ∃ a, x.get k = some a := by
  cases x with
  | obj fields => exact ⟨_, rfl⟩
  | atom a =>
    cases a with
    | fn id nm => exact ⟨_, rfl⟩
    | arr xs => exact ⟨_, rfl⟩
    | prim p => cases p <;> first | exact ⟨_, rfl⟩ | simp [Val.isNullish] at hx

theorem JSSet.delete_of_not_has (s : JSSet) (a : Atom) (h : s.has a = false) :
    s.delete a = s := by
  cases a with
  | prim p =>
    simp only [JSSet.has, decide_eq_false_iff_not] at h
    simp only [JSSet.delete]
    rw [List.filter_eq_self]
    intro q hq
    have : q ≠ p := fun e => h (e ▸ hq)
    simpa using this
  | fn id nm => rfl
  | arr xs => rfl

theorem JSSet.size_pos_of_has (s : JSSet) (a : Atom) (h : s.has a = true) : s.size > 0 := by
  cases a with
  | prim p =>
    simp only [JSSet.has, decide_eq_true_eq] at h
    exact List.length_pos_of_mem h
  | fn id nm => simp [JSSet.has] at h
  | arr xs => simp [JSSet.has] at h

/-- One turn of the loop on an element whose properties can be read. -/
theorem insertLoop_succ (coerceGt : Atom → Int → Bool) (stage : Int) (i : Nat)
    (before : Option JSSet) (taps : List Val) (hx : (getAt taps i).isNullish = false) :
    insertLoop coerceGt stage (i + 1) before taps =
      if continues coerceGt stage before (getAt taps i) then
        insertLoop coerceGt stage i (beforeAfter before [getAt taps i])
          (setAt taps (i + 1) (getAt taps i))
      else (setAt taps (i + 1) (getAt taps i), some (i + 1)) := by
  obtain ⟨s, hs⟩ := get_of_not_nullish hx "stage"
  obtain ⟨nm, hnm⟩ := get_of_not_nullish hx "name"
  cases before with
  | none =>
    simp only [insertLoop, hs, continues, xStageOf, Option.getD_some, Bool.false_or,
      beforeAfter, List.foldr_cons, List.foldr_nil, Option.map_none']
  | some b =>
    simp only [insertLoop, hs, hnm, continues, xStageOf, nameOf, Option.getD_some,
      beforeAfter, List.foldr_cons, List.foldr_nil, Option.map_some']
    by_cases hhas : b.has nm = true
    · have := JSSet.size_pos_of_has b nm hhas
      simp [hhas, this]
    · have hhas' : b.has nm = false := by simpa using hhas
      rw [JSSet.delete_of_not_has b nm hhas']
      by_cases hsz : b.size > 0
      · simp [hhas', hsz]
      · simp [hhas', hsz]

theorem getAt_append_cons (pre : List Val) (x : Val) (rest : List Val) :
    getAt (pre ++ x :: rest) pre.length = x := by
  have h : (pre ++ x :: rest)[pre.length]? = some x := by
    rw [List.getElem?_append_right (Nat.le_refl _)]
    simp
  simp [getAt, List.getD_eq_getElem?_getD, h]

/-- Writing the slot right after `pre`: the slot is overwritten when it is there, and the
array grows by one when `pre` is the whole array. -/
theorem setAt_slot (pre junk suf : List Val) (v : Val) (hj : junk.length ≤ 1)
    (hs : junk = [] → suf = []) :
    setAt (pre ++ junk ++ suf) pre.length v = pre ++ v :: suf := by
  match junk, hj, hs with
  | [], _, hs =>
    simp [setAt, hs rfl]
  | [j], _, _ =>
    simp [setAt, List.set_append]

theorem beforeAfter_append (before : Option JSSet) (xs ys : List Val) :
    beforeAfter before (xs ++ ys) = beforeAfter (beforeAfter before ys) xs := by
  simp [beforeAfter, List.foldr_append]

/-- The loop of `_insert` on an array whose first `pre.length` elements are `pre`, entered
with the counter at `pre.length`: it ends normally with the counter at the length of a prefix
`p1` of `pre`, and the write `taps[i] = item` that follows it yields `pre` with `item` put
between `p1` and the rest `p2`. The loop went on at every element of `p2` and stopped at the
last element of `p1`. -/
theorem insertLoop_split (coerceGt : Atom → Int → Bool) (stage : Int) (item : Val) :
    ∀ (pre : List Val) (before : Option JSSet) (junk suf : List Val),
      (∀ x ∈ pre, x.isNullish = false) → junk.length ≤ 1 → (junk = [] → suf = []) →
      ∃ p1 p2, pre = p1 ++ p2 ∧
        (insertLoop coerceGt stage pre.length before (pre ++ junk ++ suf)).2 = some p1.length ∧
        setAt (insertLoop coerceGt stage pre.length before (pre ++ junk ++ suf)).1 p1.length item
          = p1 ++ item :: (p2 ++ suf) ∧
        (∀ q1 x q2, p2 = q1 ++ x :: q2 →
          continues coerceGt stage (beforeAfter before q2) x = true) ∧
        (∀ q x, p1 = q ++ [x] → continues coerceGt stage (beforeAfter before p2) x = false) := by
  intro pre
  induction pre using List.reverseRecOn with
  | nil =>
    intro before junk suf _ hj hs
    refine ⟨[], [], rfl, rfl, ?_, ?_, ?_⟩
    · have := setAt_slot [] junk suf item hj hs
      simpa [insertLoop] using this
    · intro q1 x q2 h
      simp at h
    · intro q x h
      simp at h
  | append_singleton pre x ih =>
    intro before junk suf hpre hj hs
    have hx : x.isNullish = false := hpre x (by simp)
    have hpre' : ∀ y ∈ pre, y.isNullish = false := fun y hy => hpre y (by simp [hy])
    have hget : getAt (pre ++ [x] ++ junk ++ suf) pre.length = x := by
      have := getAt_append_cons pre x (junk ++ suf)
      simpa using this
    have hset : setAt (pre ++ [x] ++ junk ++ suf) (pre.length + 1) x
        = pre ++ [x] ++ (x :: suf) := by
      have := setAt_slot (pre ++ [x]) junk suf x hj hs
      simpa using this
    have hstep := insertLoop_succ coerceGt stage pre.length before (pre ++ [x] ++ junk ++ suf)
      (by rw [hget]; exact hx)
    rw [hget, hset] at hstep
    have hlen : (pre ++ [x]).length = pre.length + 1 := by simp
    rw [hlen, hstep]
    by_cases hc : continues coerceGt stage before x = true
    · obtain ⟨p1, p2, hsplit, hidx, htaps, hpass, hstop⟩ :=
        ih (beforeAfter before [x]) [x] (x :: suf) hpre' (by simp) (by simp)
      have hshape : pre ++ [x] ++ (x :: suf) = pre ++ [x] ++ x :: suf := rfl
      refine ⟨p1, p2 ++ [x], by simp [hsplit], ?_, ?_, ?_, ?_⟩
      · simpa [hc] using hidx
      · simpa [hc] using htaps
      · intro q1 y q2 h
        rcases List.eq_nil_or_concat q2 with hq2 | ⟨q2', z, hq2⟩
        · subst hq2
          have h' : p2 ++ [x] = q1 ++ [y] := by simpa using h
          have := List.append_inj' h' rfl
          have hy : x = y := by simpa using this.2
          subst hy
          simpa [beforeAfter] using hc
        · rw [List.concat_eq_append] at hq2
          subst hq2
          have h' : p2 ++ [x] = (q1 ++ y :: q2') ++ [z] := by simpa using h
          have := List.append_inj' h' rfl
          have hz : x = z := by simpa using this.2
          subst hz
          rw [beforeAfter_append]
          exact hpass q1 y q2' this.1
      · intro q y h
        rw [beforeAfter_append]
        exact hstop q y h
    · have hc' : continues coerceGt stage before x = false := by simpa using hc
      refine ⟨pre ++ [x], [], by simp, ?_, ?_, ?_, ?_⟩
      · simp [hc']
      · have := setAt_slot (pre ++ [x]) [x] suf item (by simp) (by simp)
        simpa [hc'] using this
      · intro q1 y q2 h
        simp at h
      · intro q y h
        have := List.append_inj' h rfl
        have hy : x = y := by simpa using this.2
        subst hy
        simpa [beforeAfter] using hc'

/-- The method `_insert` on a registry whose taps can be read (none is `undefined` or `null`):
it does not throw, and the new taps are the old ones with `item` put between a prefix `p1` and
the rest `p2`, where the loop went on at every element of `p2` and stopped at the last element
of `p1`. -/
theorem insert_split (coerceGt : Atom → Int → Bool) (h : Hook) (item : Val)
    (htaps : ∀ x ∈ h.taps, x.isNullish = false) (hitem : item.isNullish = false) :
    ∃ p1 p2, h.taps = p1 ++ p2 ∧
      _insert coerceGt h item
        = ⟨{ _resetCompilation h with taps := p1 ++ item :: p2 }, none⟩ ∧
      (∀ q1 x q2, p2 = q1 ++ x :: q2 →
        continues coerceGt (itemStage item) (beforeAfter (itemBefore item) q2) x = true) ∧
      (∀ q x, p1 = q ++ [x] →
        continues coerceGt (itemStage item) (beforeAfter (itemBefore item) p2) x = false) := by
  obtain ⟨b, hb⟩ := get_of_not_nullish hitem "before"
  obtain ⟨s, hs⟩ := get_of_not_nullish hitem "stage"
  obtain ⟨p1, p2, hsplit, hidx, hset, hpass, hstop⟩ :=
    insertLoop_split coerceGt (stageOf s) item h.taps (beforeSet b) [] []
      htaps (by simp) (fun _ => rfl)
  simp only [List.append_nil] at hidx hset
  refine ⟨p1, p2, hsplit, ?_, ?_, ?_⟩
  · simp only [_insert, hb, hs, _resetCompilation]
    generalize insertLoop coerceGt (stageOf s) h.taps.length (beforeSet b) h.taps = r at hidx hset
    obtain ⟨T, k⟩ := r
    simp only at hidx hset
    subst hidx
    simp only [hset]
  · simpa [itemStage, itemBefore, hb, hs] using hpass
  · simpa [itemStage, itemBefore, hb, hs] using hstop
/-! ### Insertion by stage (C1) -/

theorem isStageRecord_facts (coerceGt : Atom → Int → Bool) {x : Val}
    (hx : x.isStageRecord = true) :
    x.isNullish = false ∧ itemBefore x = none ∧
      ∀ stage, (xStageOf x).gt coerceGt stage = decide (itemStage x > stage) := by
  cases x with
  | atom a => simp [Val.isStageRecord] at hx
  | obj fields =>
    simp only [Val.isStageRecord, Bool.and_eq_true, Option.isNone_iff_eq_none] at hx
    obtain ⟨hb, hs⟩ := hx
    refine ⟨rfl, ?_, ?_⟩
    · simp [itemBefore, Val.get, hb, beforeSet]
    · intro stage
      cases hl : fields.lookup "stage" with
      | none => simp [xStageOf, itemStage, Val.get, hl, stageOf, Atom.truthy, Atom.gt]
      | some a =>
        rw [hl] at hs
        cases a with
        | fn id nm => simp at hs
        | arr xs => simp at hs
        | prim p =>
          cases p with
          | num n =>
            by_cases hn : n = 0
            · simp [xStageOf, itemStage, Val.get, hl, stageOf, Atom.truthy, Atom.gt, hn]
            · simp [xStageOf, itemStage, Val.get, hl, stageOf, Atom.truthy, Atom.gt, hn]
          | undefined => simp at hs
          | null => simp at hs
          | bool b => simp at hs
          | str s => simp at hs

/-- One insertion of a stage-only record into a registry of stage-only records that is sorted
by stage: the record goes behind every tap of lower or equal stage and in front of every tap
of higher stage. -/
theorem insert_stage_step (coerceGt : Atom → Int → Bool) (h : Hook) (item : Val)
    (htaps : ∀ t ∈ h.taps, t.isStageRecord = true)
    (hsorted : h.taps.Pairwise (fun a b => itemStage a ≤ itemStage b))
    (hitem : item.isStageRecord = true) :
    ∃ p1 p2, h.taps = p1 ++ p2 ∧
      _insert coerceGt h item
        = ⟨{ _resetCompilation h with taps := p1 ++ item :: p2 }, none⟩ ∧
      (∀ x ∈ p1, itemStage x ≤ itemStage item) ∧ (∀ x ∈ p2, itemStage item < itemStage x) := by
  obtain ⟨hnn, hbefore, -⟩ := isStageRecord_facts coerceGt hitem
  obtain ⟨p1, p2, hsplit, hins, hpass, hstop⟩ := insert_split coerceGt h item
    (fun x hx => (isStageRecord_facts coerceGt (htaps x hx)).1) hnn
  have hba : ∀ xs, beforeAfter (itemBefore item) xs = none := by
    intro xs
    rw [hbefore]
    induction xs with
    | nil => rfl
    | cons y ys ih => simp [beforeAfter] at ih ⊢; simp [ih]
  refine ⟨p1, p2, hsplit, hins, ?_, ?_⟩
  · intro x hx
    rcases List.eq_nil_or_concat p1 with hp | ⟨q, y, hp⟩
    · simp [hp] at hx
    · rw [List.concat_eq_append] at hp
      have hy := hstop q y hp
      have hyrec : y.isStageRecord = true := htaps y (by simp [hsplit, hp])
      rw [hba, continues, (isStageRecord_facts coerceGt hyrec).2.2] at hy
      have hyle : itemStage y ≤ itemStage item := by simpa using hy
      rw [hsplit, hp] at hsorted
      have hq := (List.pairwise_append.1 (List.pairwise_append.1 hsorted).1)
      rw [hp] at hx
      rcases List.mem_append.1 hx with hxq | hxy
      · exact le_trans (hq.2.2 x hxq y (by simp)) hyle
      · simp at hxy
        rw [hxy]
        exact hyle
  · intro x hx
    obtain ⟨q1, q2, hq⟩ := List.append_of_mem hx
    have hc := hpass q1 x q2 hq
    have hxrec : x.isStageRecord = true := htaps x (by simp [hsplit, hq])
    rw [hba, continues, (isStageRecord_facts coerceGt hxrec).2.2] at hc
    simpa using hc

theorem insertAll_stage (coerceGt : Atom → Int → Bool) :
    ∀ (seq : List Val) (h : Hook), (∀ t ∈ h.taps, t.isStageRecord = true) →
      h.taps.Pairwise (fun a b => itemStage a ≤ itemStage b) →
      (∀ t ∈ seq, t.isStageRecord = true) →
      (insertAll coerceGt h seq).thrown = none ∧
      (insertAll coerceGt h seq).hook.taps.Pairwise (fun a b => itemStage a ≤ itemStage b) ∧
      (insertAll coerceGt h seq).hook.taps.Perm (h.taps ++ seq) ∧
      ∀ s : Int, (insertAll coerceGt h seq).hook.taps.filter (fun t => itemStage t = s)
        = (h.taps ++ seq).filter (fun t => itemStage t = s) := by
  intro seq
  induction seq with
  | nil =>
    intro h _ hsorted _
    simp [insertAll, hsorted]
  | cons item rest ih =>
    intro h htaps hsorted hseq
    obtain ⟨p1, p2, hsplit, hins, hle, hlt⟩ := insert_stage_step coerceGt h item htaps hsorted
      (hseq item (by simp))
    have hrec' : ∀ t ∈ p1 ++ item :: p2, t.isStageRecord = true := by
      intro t ht
      simp only [List.mem_append, List.mem_cons] at ht
      rcases ht with ht | ht | ht
      · exact htaps t (by simp [hsplit, ht])
      · exact ht ▸ hseq item (by simp)
      · exact htaps t (by simp [hsplit, ht])
    have hsorted' : (p1 ++ item :: p2).Pairwise (fun a b => itemStage a ≤ itemStage b) := by
      rw [hsplit] at hsorted
      obtain ⟨h1, h2, h12⟩ := List.pairwise_append.1 hsorted
      refine List.pairwise_append.2 ⟨h1, List.pairwise_cons.2 ⟨?_, h2⟩, ?_⟩
      · intro x hx
        exact le_of_lt (hlt x hx)
      · intro a ha b hb
        simp only [List.mem_cons] at hb
        rcases hb with hb | hb
        · exact hb ▸ hle a ha
        · exact h12 a ha b hb
    obtain ⟨ih1, ih2, ih3, ih4⟩ := ih { _resetCompilation h with taps := p1 ++ item :: p2 }
      hrec' hsorted' (fun t ht => hseq t (by simp [ht]))
    have hrun : insertAll coerceGt h (item :: rest)
        = insertAll coerceGt { _resetCompilation h with taps := p1 ++ item :: p2 } rest := by
      simp [insertAll, hins]
    rw [hrun]
    refine ⟨ih1, ih2, ?_, ?_⟩
    · refine ih3.trans ?_
      simp only [hsplit, List.append_assoc]
      refine List.Perm.append_left p1 ?_
      simpa using (@List.perm_middle _ item p2 rest).symm
    · intro s
      rw [ih4 s]
      simp only [hsplit, List.filter_append, List.filter_cons, List.append_assoc]
      by_cases hs : itemStage item = s
      · have hp2 : p2.filter (fun t => decide (itemStage t = s)) = [] := by
          rw [List.filter_eq_nil_iff]
          intro x hx
          have := hlt x hx
          simp only [decide_eq_true_eq]
          omega
        simp [hs, hp2]
      · simp [hs]

/-- Two lists sorted by stage that agree, stage by stage, on the taps of that stage and their
order are equal. -/
theorem eq_of_sorted_of_filter_eq :
    ∀ (l1 l2 : List Val), l1.Pairwise (fun a b => itemStage a ≤ itemStage b) →
      l2.Pairwise (fun a b => itemStage a ≤ itemStage b) →
      (∀ s : Int, l1.filter (fun t => itemStage t = s) = l2.filter (fun t => itemStage t = s)) →
      l1 = l2 := by
  intro l1
  induction l1 with
  | nil =>
    intro l2 _ _ hf
    cases l2 with
    | nil => rfl
    | cons b l2' =>
      have := hf (itemStage b)
      simp at this
  | cons a l1' ih =>
    intro l2 h1 h2 hf
    cases l2 with
    | nil =>
      have := hf (itemStage a)
      simp at this
    | cons b l2' =>
      have ha : a ∈ (b :: l2').filter (fun t => itemStage t = itemStage a) := by
        rw [← hf]; simp
      have hb : b ∈ (a :: l1').filter (fun t => itemStage t = itemStage b) := by
        rw [hf]; simp
      have hab : itemStage a ≤ itemStage b := by
        have hmem := (List.mem_filter.1 hb).1
        rcases List.mem_cons.1 hmem with e | hm
        · rw [e]
        · exact List.rel_of_pairwise_cons h1 hm
      have hba : itemStage b ≤ itemStage a := by
        have hmem := (List.mem_filter.1 ha).1
        rcases List.mem_cons.1 hmem with e | hm
        · rw [e]
        · exact List.rel_of_pairwise_cons h2 hm
      have hkey : itemStage a = itemStage b := le_antisymm hab hba
      have hhead := hf (itemStage a)
      have hab' : a = b := by
        simp [List.filter_cons, hkey] at hhead
        exact hhead.1
      subst hab'
      have htail : l1' = l2' := by
        apply ih l2' (List.Pairwise.of_cons h1) (List.Pairwise.of_cons h2)
        intro s
        have := hf s
        by_cases hs : itemStage a = s
        · simpa [List.filter_cons, hs] using this
        · simpa [List.filter_cons, hs] using this
      rw [htail]

/-- The stable sort `List.mergeSort` keeps, for every stage, the records of that stage in
their order. -/
theorem mergeSort_filter_stage (seq : List Val) (s : Int) :
    (seq.mergeSort (fun a b => decide (itemStage a ≤ itemStage b))).filter
        (fun t => itemStage t = s)
      = seq.filter (fun t => itemStage t = s) := by
  have htrans : ∀ a b c : Val, decide (itemStage a ≤ itemStage b) = true →
      decide (itemStage b ≤ itemStage c) = true → decide (itemStage a ≤ itemStage c) = true := by
    intro a b c hab hbc
    simp only [decide_eq_true_eq] at hab hbc ⊢
    exact le_trans hab hbc
  have htotal : ∀ a b : Val,
      (decide (itemStage a ≤ itemStage b) || decide (itemStage b ≤ itemStage a)) = true := by
    intro a b
    simp only [Bool.or_eq_true, decide_eq_true_eq]
    exact le_total _ _
  have hsub : List.Sublist (seq.filter (fun t => decide (itemStage t = s))) seq :=
    List.filter_sublist _
  have hpw : (seq.filter (fun t => decide (itemStage t = s))).Pairwise
      (fun a b => decide (itemStage a ≤ itemStage b) = true) := by
    rw [List.pairwise_iff_forall_sublist]
    intro a b hab
    have ha : a ∈ seq.filter (fun t => decide (itemStage t = s)) := hab.subset (by simp)
    have hb : b ∈ seq.filter (fun t => decide (itemStage t = s)) := hab.subset (by simp)
    have ha' : itemStage a = s := by simpa using (List.mem_filter.1 ha).2
    have hb' : itemStage b = s := by simpa using (List.mem_filter.1 hb).2
    simp [ha', hb']
  have hstable := List.sublist_mergeSort htrans htotal hpw hsub
  have hsub' := hstable.filter (fun t => decide (itemStage t = s))
  rw [List.filter_filter] at hsub'
  simp only [Bool.and_self] at hsub'
  have hlen : ((seq.mergeSort (fun a b => decide (itemStage a ≤ itemStage b))).filter
      (fun t => decide (itemStage t = s))).length
      = (seq.filter (fun t => decide (itemStage t = s))).length :=
    ((List.mergeSort_perm seq _).filter _).length_eq
  exact (hsub'.eq_of_length hlen.symm).symm

/-- C1. Records that carry no `before` and whose `stage` is absent or an integer, inserted one
after another with `_insert` into the registry of a new hook: no call throws, and the taps are
the stable sort of the inserted sequence by stage, a missing stage counting as 0 (`itemStage`):
the stages are non-decreasing from left to right, the taps are the inserted records, the
taps of any one stage are in the order in which they were inserted, and the list is the one
that the stable sorting function `List.mergeSort` returns for the sequence. -/
theorem insert_sequence_stable_sorted (coerceGt : Atom → Int → Bool) (args : List String)
    (name : Option String) (seq : List Val) (hseq : ∀ t ∈ seq, t.isStageRecord = true) :
    (insertAll coerceGt (Hook.new args name) seq).thrown = none ∧
    (insertAll coerceGt (Hook.new args name) seq).hook.taps.Pairwise
      (fun a b => itemStage a ≤ itemStage b) ∧
    (insertAll coerceGt (Hook.new args name) seq).hook.taps.Perm seq ∧
    (∀ s : Int, (insertAll coerceGt (Hook.new args name) seq).hook.taps.filter
        (fun t => itemStage t = s) = seq.filter (fun t => itemStage t = s)) ∧
    (insertAll coerceGt (Hook.new args name) seq).hook.taps
      = seq.mergeSort (fun a b => decide (itemStage a ≤ itemStage b)) := by
  have h := insertAll_stage coerceGt seq (Hook.new args name) (by simp [Hook.new])
    (by simp [Hook.new]) hseq
  have h1 : (insertAll coerceGt (Hook.new args name) seq).thrown = none := h.1
  have h2 := h.2.1
  have h3 : (insertAll coerceGt (Hook.new args name) seq).hook.taps.Perm seq := by
    simpa [Hook.new] using h.2.2.1
  have h4 : ∀ s : Int, (insertAll coerceGt (Hook.new args name) seq).hook.taps.filter
      (fun t => itemStage t = s) = seq.filter (fun t => itemStage t = s) := by
    simpa [Hook.new] using h.2.2.2
  refine ⟨h1, h2, h3, h4, ?_⟩
  apply eq_of_sorted_of_filter_eq _ _ h2
  · have hsorted := @List.sorted_mergeSort Val
      (fun a b : Val => decide (itemStage a ≤ itemStage b))
      (fun a b c hab hbc => by
        simp only [decide_eq_true_eq] at hab hbc ⊢
        exact le_trans hab hbc)
      (fun a b => by
        simp only [Bool.or_eq_true, decide_eq_true_eq]
        exact le_total _ _) seq
    exact hsorted.imp (fun hab => by simpa using hab)
  · intro s
    rw [h4 s, mergeSort_filter_stage]

/-- C1 at a concrete sequence: stages 1, absent, -2, 0, 1 (names a to e) end in the order
c, b, d, a, e. -/
theorem insert_sequence_stable_sorted_witness :
    (∀ t ∈ [Val.obj [("name", .prim (.str "a")), ("stage", .prim (.num 1))],
        Val.obj [("name", .prim (.str "b"))],
        Val.obj [("name", .prim (.str "c")), ("stage", .prim (.num (-2)))],
        Val.obj [("name", .prim (.str "d")), ("stage", .prim (.num 0))],
        Val.obj [("name", .prim (.str "e")), ("stage", .prim (.num 1))]],
      t.isStageRecord = true) ∧
    (insertAll (fun _ _ => false) (Hook.new [] none)
      [Val.obj [("name", .prim (.str "a")), ("stage", .prim (.num 1))],
        Val.obj [("name", .prim (.str "b"))],
        Val.obj [("name", .prim (.str "c")), ("stage", .prim (.num (-2)))],
        Val.obj [("name", .prim (.str "d")), ("stage", .prim (.num 0))],
        Val.obj [("name", .prim (.str "e")), ("stage", .prim (.num 1))]]).hook.taps
      = [Val.obj [("name", .prim (.str "c")), ("stage", .prim (.num (-2)))],
        Val.obj [("name", .prim (.str "b"))],
        Val.obj [("name", .prim (.str "d")), ("stage", .prim (.num 0))],
        Val.obj [("name", .prim (.str "a")), ("stage", .prim (.num 1))],
        Val.obj [("name", .prim (.str "e")), ("stage", .prim (.num 1))]] ∧
    (insertAll (fun _ _ => false) (Hook.new [] none)
      [Val.obj [("name", .prim (.str "a")), ("stage", .prim (.num 1))],
        Val.obj [("name", .prim (.str "b"))],
        Val.obj [("name", .prim (.str "c")), ("stage", .prim (.num (-2)))],
        Val.obj [("name", .prim (.str "d")), ("stage", .prim (.num 0))],
        Val.obj [("name", .prim (.str "e")), ("stage", .prim (.num 1))]]).hook.taps.Pairwise
      (fun a b => itemStage a ≤ itemStage b) :=
  ⟨by decide, by decide,
    (insert_sequence_stable_sorted (fun _ _ => false) [] none _ (by decide)).2.1⟩

/-! ### Insertion with `before` (C2, C3, C4) -/

/-- The set `before` after the loop body has run on `xs`: the names of the starting set that
no element of `xs` carries. -/
theorem beforeAfter_some (s : JSSet) (xs : List Val) :
    ∃ s', beforeAfter (some s) xs = some s' ∧
      ∀ p, p ∈ s' ↔ p ∈ s ∧ ∀ x ∈ xs, nameOf x ≠ .prim p := by
  induction xs with
  | nil => exact ⟨s, rfl, by simp⟩
  | cons y ys ih =>
    obtain ⟨s', hs', hmem⟩ := ih
    refine ⟨s'.delete (nameOf y), ?_, ?_⟩
    · have : beforeAfter (some s) (y :: ys)
          = (beforeAfter (some s) ys).map (fun t => t.delete (nameOf y)) := rfl
      rw [this, hs']
      rfl
    · intro p
      cases hn : nameOf y with
      | prim q =>
        simp only [JSSet.delete, List.mem_filter, hmem, List.mem_cons, forall_eq_or_imp, hn,
          decide_eq_true_eq, ne_eq, Atom.prim.injEq]
        constructor
        · rintro ⟨⟨h1, h2⟩, h3⟩
          exact ⟨h1, fun e => h3 e.symm, h2⟩
        · rintro ⟨h1, h2, h3⟩
          exact ⟨⟨h1, h3⟩, fun e => h2 e.symm⟩
      | fn id nm => simp [JSSet.delete, hmem, hn]
      | arr zs => simp [JSSet.delete, hmem, hn]

theorem hasStageZero_facts (coerceGt : Atom → Int → Bool) {x : Val}
    (hx : x.hasStageZero = true) :
    x.isNullish = false ∧ (xStageOf x).gt coerceGt 0 = false := by
  cases x with
  | atom a => simp [Val.hasStageZero] at hx
  | obj fields =>
    refine ⟨rfl, ?_⟩
    simp only [Val.hasStageZero] at hx
    cases hl : fields.lookup "stage" with
    | none => simp [xStageOf, Val.get, hl, Atom.truthy, Atom.gt]
    | some a =>
      rw [hl] at hx
      cases a with
      | fn id nm => simp at hx
      | arr xs => simp at hx
      | prim p =>
        cases p with
        | num n =>
          have hn : n = 0 := by simpa using hx
          simp [xStageOf, Val.get, hl, Atom.truthy, Atom.gt, hn]
        | undefined => simp at hx
        | null => simp at hx
        | bool b => simp at hx
        | str s => simp at hx

/-- With the one-name set for `X`, stage 0 and a scanned tap of stage 0, the loop goes on
exactly while no tap named `X` has been passed. -/
theorem continues_single (coerceGt : Atom → Int → Bool) (X : String) (q : List Val) {y : Val}
    (hy : y.hasStageZero = true) :
    continues coerceGt 0 (beforeAfter (some [.str X]) q) y
      = decide (∀ z ∈ q, nameOf z ≠ .prim (.str X)) := by
  obtain ⟨s', hs', hmem⟩ := beforeAfter_some [.str X] q
  rw [hs', continues, (hasStageZero_facts coerceGt hy).2, Bool.or_false]
  by_cases hq : ∀ z ∈ q, nameOf z ≠ .prim (.str X)
  · have : Prim.str X ∈ s' := (hmem _).2 ⟨by simp, hq⟩
    have hpos := List.length_pos_of_mem this
    simpa [JSSet.size, hpos] using hq
  · have hnil : s' = [] := by
      rw [List.eq_nil_iff_forall_not_mem]
      intro p hp
      obtain ⟨h1, h2⟩ := (hmem p).1 hp
      have : p = .str X := by simpa using h1
      subst this
      exact hq h2
    simp [JSSet.size, hq, hnil]

theorem order_A_B_C (coerceGt : Atom → Int → Bool) (fn : Atom) :
    (tap coerceGt
        (tap coerceGt
          (tap coerceGt (Hook.new [] none)
            (.obj [("name", .prim (.str "A")), ("stage", .prim (.num 0))]) fn).hook
          (.obj [("name", .prim (.str "B")), ("before", .prim (.str "A"))]) fn).hook
        (.obj [("name", .prim (.str "C")), ("stage", .prim (.num (-1)))]) fn).hook.taps.map nameOf
      = [.prim (.str "C"), .prim (.str "B"), .prim (.str "A")] := by
  simp [tap, _tap, Hook.new, Val.typeof, Atom.typeof, Val.get, objectAssign, ownEnumerable,
    setKey, _runRegisterInterceptors, registerLoop, _insert, _resetCompilation, insertLoop,
    beforeSet, stageOf, getAt, setAt, Atom.truthy, Atom.gt, JSSet.has, JSSet.delete, JSSet.size,
    nameOf, List.lookup]

/-- C2. A registry whose taps all have stage 0 or no stage and whose last tap named `X` is
`x` (taps `l1` in front of it, taps `l2`, none named `X`, behind it); a new record whose
`before` is the string `X` or the array `[X]` and that has no `stage`: `_insert` does not
throw and puts the record directly in front of `x`. Scenario: on a new hook, registering A
(stage 0), then B (before A), then C (stage -1) gives the order C, B, A. -/
theorem insert_before_existing (coerceGt : Atom → Int → Bool) (h : Hook) (X : String)
    (l1 l2 : List Val) (x : Val) (fields : List (String × Atom)) (fn : Atom)
    (hstage : ∀ t ∈ h.taps, t.hasStageZero = true)
    (hsplit : h.taps = l1 ++ x :: l2)
    (hx : nameOf x = .prim (.str X))
    (hl2 : ∀ t ∈ l2, nameOf t ≠ .prim (.str X))
    (hbefore : fields.lookup "before" = some (.prim (.str X)) ∨
      fields.lookup "before" = some (.arr [.str X]))
    (hnostage : fields.lookup "stage" = none) :
    ((_insert coerceGt h (.obj fields)).thrown = none ∧
      (_insert coerceGt h (.obj fields)).hook.taps = l1 ++ .obj fields :: x :: l2) ∧
    ((tap coerceGt
        (tap coerceGt
          (tap coerceGt (Hook.new [] none)
            (.obj [("name", .prim (.str "A")), ("stage", .prim (.num 0))]) fn).hook
          (.obj [("name", .prim (.str "B")), ("before", .prim (.str "A"))]) fn).hook
        (.obj [("name", .prim (.str "C")), ("stage", .prim (.num (-1)))]) fn).hook.taps.map nameOf
      = [.prim (.str "C"), .prim (.str "B"), .prim (.str "A")]) := by
  refine ⟨?_, order_A_B_C coerceGt fn⟩
  have hib : itemBefore (.obj fields) = some [.str X] := by
    rcases hbefore with hb | hb <;> simp [itemBefore, Val.get, hb, beforeSet, JSSet.ofArray]
  have his : itemStage (.obj fields) = 0 := by
    simp [itemStage, Val.get, hnostage, stageOf]
  obtain ⟨p1, p2, hp, hins, hpass, hstop⟩ := insert_split coerceGt h (.obj fields)
    (fun t ht => (hasStageZero_facts coerceGt (hstage t ht)).1) rfl
  rw [hib, his] at hpass hstop
  have hgoal : p1 = l1 ∧ p2 = x :: l2 := by
    rw [hsplit] at hp
    rcases List.append_eq_append_iff.1 hp with ⟨a, ha1, ha2⟩ | ⟨c, hc1, hc2⟩
    · -- `p1 = l1 ++ a` and `x :: l2 = a ++ p2`
      cases a with
      | nil => exact ⟨by simpa using ha1, by simpa using ha2.symm⟩
      | cons a0 a' =>
        exfalso
        have hxa : x = a0 ∧ l2 = a' ++ p2 := by simpa using ha2
        obtain ⟨q, y, hq⟩ : ∃ q y, p1 = q ++ [y] := by
          rcases List.eq_nil_or_concat p1 with hnil | ⟨q, y, hq⟩
          · rw [hnil] at ha1
            simp at ha1
          · exact ⟨q, y, by rw [hq, List.concat_eq_append]⟩
        have hy : y.hasStageZero = true := hstage y (by rw [hsplit, hp, hq]; simp)
        have := hstop q y hq
        rw [continues_single coerceGt X p2 hy] at this
        have hex : ¬ ∀ z ∈ p2, nameOf z ≠ .prim (.str X) := by simpa using this
        exact hex (fun z hz => hl2 z (by rw [hxa.2]; simp [hz]))
    · -- `l1 = p1 ++ c` and `p2 = c ++ x :: l2`
      rcases List.eq_nil_or_concat c with hnil | ⟨c', y, hc⟩
      · subst hnil
        exact ⟨by simpa using hc1.symm, by simpa using hc2⟩
      · exfalso
        rw [List.concat_eq_append] at hc
        subst hc
        have hy : y.hasStageZero = true := hstage y (by rw [hsplit, hc1]; simp)
        have := hpass c' y (x :: l2) (by rw [hc2]; simp)
        rw [continues_single coerceGt X (x :: l2) hy] at this
        have hall : ∀ z ∈ x :: l2, nameOf z ≠ .prim (.str X) := by simpa using this
        exact hall x (by simp) hx
  rw [hins, hgoal.1, hgoal.2]
  exact ⟨rfl, rfl⟩

/-- C2 at a concrete registry: one tap A, and B registered before A. -/
theorem insert_before_existing_witness :
    (_insert (fun _ _ => false)
        { Hook.new [] none with taps := [.obj [("name", .prim (.str "A"))]] }
        (.obj [("name", .prim (.str "B")), ("before", .prim (.str "A"))])).hook.taps
      = [.obj [("name", .prim (.str "B")), ("before", .prim (.str "A"))],
        .obj [("name", .prim (.str "A"))]] :=
  (insert_before_existing (fun _ _ => false)
    { Hook.new [] none with taps := [.obj [("name", .prim (.str "A"))]] } "A" [] []
    (.obj [("name", .prim (.str "A"))])
    [("name", .prim (.str "B")), ("before", .prim (.str "A"))] (.fn 0 "f")
    (by decide) rfl rfl (by decide) (Or.inl rfl) rfl).1.2

/-- While a name of the set has not been met among the taps passed, the loop goes on. -/
theorem continues_of_pending (coerceGt : Atom → Int → Bool) (stage : Int) (s : JSSet)
    (n : Prim) (hn : n ∈ s) (q : List Val) (hq : ∀ t ∈ q, nameOf t ≠ .prim n) (y : Val) :
    continues coerceGt stage (beforeAfter (some s) q) y = true := by
  obtain ⟨s', hs', hmem⟩ := beforeAfter_some s q
  have : n ∈ s' := (hmem n).2 ⟨hn, hq⟩
  have hpos := List.length_pos_of_mem this
  simp [hs', continues, JSSet.size, hpos]

theorem not_nullish_of_itemBefore {item : Val} {s : JSSet} (hb : itemBefore item = some s) :
    item.isNullish = false := by
  cases item with
  | obj fields => rfl
  | atom a =>
    cases a with
    | fn id nm => rfl
    | arr xs => rfl
    | prim p => cases p <;> first | rfl | simp [itemBefore, Val.get, beforeSet] at hb

/-- C3, as the code has it. A registry whose taps can be read, and a new record one of whose
`before` names is carried by no tap: `_insert` does not throw and puts the record in front of
all taps, whatever its stage and its other `before` names. -/
theorem insert_unmatched_before_front (coerceGt : Atom → Int → Bool) (h : Hook) (item : Val)
    (s : JSSet) (n : Prim)
    (htaps : ∀ t ∈ h.taps, t.isNullish = false)
    (hb : itemBefore item = some s) (hn : n ∈ s)
    (hno : ∀ t ∈ h.taps, nameOf t ≠ .prim n) :
    (_insert coerceGt h item).thrown = none ∧
      (_insert coerceGt h item).hook.taps = item :: h.taps := by
  obtain ⟨p1, p2, hp, hins, -, hstop⟩ := insert_split coerceGt h item htaps
    (not_nullish_of_itemBefore hb)
  have hp1 : p1 = [] := by
    rcases List.eq_nil_or_concat p1 with hnil | ⟨q, y, hq⟩
    · exact hnil
    · exfalso
      rw [List.concat_eq_append] at hq
      have hfalse := hstop q y hq
      rw [hb, continues_of_pending coerceGt (itemStage item) s n hn p2
        (fun t ht => hno t (by simp [hp, ht])) y] at hfalse
      exact Bool.noConfusion hfalse
  subst hp1
  rw [hins]
  simp at hp
  exact ⟨rfl, by simp [hp]⟩

/-- C3 as stated fails. With one tap A in the registry, B with `before: "Z"` goes in front of
A, while B without `before` goes behind A; and with taps P, A, B with `before: ["A", "Z"]`
goes in front of P, while B with `before: ["A"]` goes between P and A. -/
theorem insert_unmatched_before_counterexample :
    ((_insert (fun _ _ => false)
        { Hook.new [] none with taps := [.obj [("name", .prim (.str "A"))]] }
        (.obj [("name", .prim (.str "B")), ("before", .prim (.str "Z"))])).hook.taps.map nameOf
      = [.prim (.str "B"), .prim (.str "A")] ∧
    (_insert (fun _ _ => false)
        { Hook.new [] none with taps := [.obj [("name", .prim (.str "A"))]] }
        (.obj [("name", .prim (.str "B"))])).hook.taps.map nameOf
      = [.prim (.str "A"), .prim (.str "B")]) ∧
    ((_insert (fun _ _ => false)
        { Hook.new [] none with
          taps := [.obj [("name", .prim (.str "P"))], .obj [("name", .prim (.str "A"))]] }
        (.obj [("name", .prim (.str "B")),
          ("before", .arr [.str "A", .str "Z"])])).hook.taps.map nameOf
      = [.prim (.str "B"), .prim (.str "P"), .prim (.str "A")] ∧
    (_insert (fun _ _ => false)
        { Hook.new [] none with
          taps := [.obj [("name", .prim (.str "P"))], .obj [("name", .prim (.str "A"))]] }
        (.obj [("name", .prim (.str "B")), ("before", .arr [.str "A"])])).hook.taps.map nameOf
      = [.prim (.str "P"), .prim (.str "B"), .prim (.str "A")]) := by
  decide

/-- C3 amended, at a concrete registry: tap A, and B with `before: "Z"`. -/
theorem insert_unmatched_before_front_witness :
    (_insert (fun _ _ => false)
        { Hook.new [] none with taps := [.obj [("name", .prim (.str "A"))]] }
        (.obj [("name", .prim (.str "B")), ("before", .prim (.str "Z"))])).hook.taps
      = [.obj [("name", .prim (.str "B")), ("before", .prim (.str "Z"))],
        .obj [("name", .prim (.str "A"))]] :=
  (insert_unmatched_before_front (fun _ _ => false)
    { Hook.new [] none with taps := [.obj [("name", .prim (.str "A"))]] }
    (.obj [("name", .prim (.str "B")), ("before", .prim (.str "Z"))]) [.str "Z"] (.str "Z")
    (by decide) rfl (by decide) (by decide)).2

/-- C4, as the code has it. A registry whose taps can be read (duplicate names allowed) and a
new record with a `before` set: `_insert` does not throw, and for every name `n` of the set,
the record is put in front of the last tap named `n` (`x` below, with no tap named `n` behind
it); taps named `n` further to the front may stay in front of the record. -/
theorem insert_before_last_of_each_name (coerceGt : Atom → Int → Bool) (h : Hook)
    (item : Val) (s : JSSet)
    (htaps : ∀ t ∈ h.taps, t.isNullish = false)
    (hb : itemBefore item = some s) :
    (_insert coerceGt h item).thrown = none ∧
    ∀ n ∈ s, ∀ (l1 : List Val) (x : Val) (l2 : List Val),
      h.taps = l1 ++ x :: l2 → nameOf x = .prim n → (∀ t ∈ l2, nameOf t ≠ .prim n) →
      ∃ m1 m2, l1 = m1 ++ m2 ∧
        (_insert coerceGt h item).hook.taps = m1 ++ item :: (m2 ++ x :: l2) := by
  obtain ⟨p1, p2, hp, hins, -, hstop⟩ := insert_split coerceGt h item htaps
    (not_nullish_of_itemBefore hb)
  rw [hins]
  refine ⟨rfl, ?_⟩
  intro n hn l1 x l2 hsplit hx hl2
  rw [hsplit] at hp
  rcases List.append_eq_append_iff.1 hp with ⟨a, ha1, ha2⟩ | ⟨c, hc1, hc2⟩
  · cases a with
    | nil =>
      refine ⟨l1, [], by simp, ?_⟩
      have h1 : p1 = l1 := by simpa using ha1
      have h2 : p2 = x :: l2 := by simpa using ha2.symm
      simp [h1, h2]
    | cons a0 a' =>
      exfalso
      have hxa : x = a0 ∧ l2 = a' ++ p2 := by simpa using ha2
      obtain ⟨q, y, hq⟩ : ∃ q y, p1 = q ++ [y] := by
        rcases List.eq_nil_or_concat p1 with hnil | ⟨q, y, hq⟩
        · rw [hnil] at ha1
          simp at ha1
        · exact ⟨q, y, by rw [hq, List.concat_eq_append]⟩
      have hfalse := hstop q y hq
      rw [hb, continues_of_pending coerceGt (itemStage item) s n hn p2
        (fun t ht => hl2 t (by rw [hxa.2]; simp [ht])) y] at hfalse
      exact Bool.noConfusion hfalse
  · exact ⟨p1, c, hc1, by simp [hc2]⟩

/-- C4 as stated fails with duplicate names. Two taps named X (told apart by their `fn`) and a
new record N with `before: "X"`: N goes between them, so the first tap named X, whose name
is in the `before` set of N, stays in front of N. -/
theorem insert_before_duplicate_counterexample :
    (_insert (fun _ _ => false)
        { Hook.new [] none with
          taps := [.obj [("name", .prim (.str "X")), ("fn", .fn 1 "f")],
            .obj [("name", .prim (.str "X")), ("fn", .fn 2 "g")]] }
        (.obj [("name", .prim (.str "N")), ("before", .prim (.str "X"))])).hook.taps
      = [.obj [("name", .prim (.str "X")), ("fn", .fn 1 "f")],
        .obj [("name", .prim (.str "N")), ("before", .prim (.str "X"))],
        .obj [("name", .prim (.str "X")), ("fn", .fn 2 "g")]] ∧
    itemBefore (.obj [("name", .prim (.str "N")), ("before", .prim (.str "X"))])
      = some [.str "X"] ∧
    nameOf (.obj [("name", .prim (.str "X")), ("fn", .fn 1 "f")]) = .prim (.str "X") := by
  decide

/-- C4 amended, at the registry of the counterexample: N is in front of the last tap named
X. -/
theorem insert_before_last_of_each_name_witness :
    ∃ m1 m2, [Val.obj [("name", .prim (.str "X")), ("fn", .fn 1 "f")]] = m1 ++ m2 ∧
      (_insert (fun _ _ => false)
        { Hook.new [] none with
          taps := [.obj [("name", .prim (.str "X")), ("fn", .fn 1 "f")],
            .obj [("name", .prim (.str "X")), ("fn", .fn 2 "g")]] }
        (.obj [("name", .prim (.str "N")), ("before", .prim (.str "X"))])).hook.taps
      = m1 ++ .obj [("name", .prim (.str "N")), ("before", .prim (.str "X"))] ::
          (m2 ++ .obj [("name", .prim (.str "X")), ("fn", .fn 2 "g")] :: []) :=
  (insert_before_last_of_each_name (fun _ _ => false)
    { Hook.new [] none with
      taps := [.obj [("name", .prim (.str "X")), ("fn", .fn 1 "f")],
        .obj [("name", .prim (.str "X")), ("fn", .fn 2 "g")]] }
    (.obj [("name", .prim (.str "N")), ("before", .prim (.str "X"))]) [.str "X"]
    (by decide) rfl).2 (.str "X") (by decide)
    [.obj [("name", .prim (.str "X")), ("fn", .fn 1 "f")]]
    (.obj [("name", .prim (.str "X")), ("fn", .fn 2 "g")]) [] rfl rfl (by decide)

/-! ### Registration (C5) -/

theorem get_of_nullish {x : Val} (hx : x.isNullish = true) (k : String) : x.get k = none := by
  cases x with
  | obj fields => simp [Val.isNullish] at hx
  | atom a =>
    cases a with
    | fn id nm => simp [Val.isNullish] at hx
    | arr xs => simp [Val.isNullish] at hx
    | prim p => cases p <;> first | rfl | simp [Val.isNullish] at hx

/-- The loop of `_insert`, whenever it ends normally (whatever the taps are): the counter ends
at the length of a prefix `p1` of `pre`, and the write `taps[i] = item` after the loop yields
`pre` with `item` put between `p1` and the rest. -/
theorem insertLoop_shape (coerceGt : Atom → Int → Bool) (stage : Int) (item : Val) :
    ∀ (pre : List Val) (before : Option JSSet) (junk suf : List Val),
      junk.length ≤ 1 → (junk = [] → suf = []) →
      ∀ k, (insertLoop coerceGt stage pre.length before (pre ++ junk ++ suf)).2 = some k →
      ∃ p1 p2, pre = p1 ++ p2 ∧ k = p1.length ∧
        setAt (insertLoop coerceGt stage pre.length before (pre ++ junk ++ suf)).1 k item
          = p1 ++ item :: (p2 ++ suf) := by
  intro pre
  induction pre using List.reverseRecOn with
  | nil =>
    intro before junk suf hj hs k hk
    have hk0 : k = 0 := by simpa [insertLoop] using hk.symm
    subst hk0
    refine ⟨[], [], rfl, rfl, ?_⟩
    have := setAt_slot [] junk suf item hj hs
    simpa [insertLoop] using this
  | append_singleton pre x ih =>
    intro before junk suf hj hs k hk
    have hget : getAt (pre ++ [x] ++ junk ++ suf) pre.length = x := by
      have := getAt_append_cons pre x (junk ++ suf)
      simpa using this
    have hset : setAt (pre ++ [x] ++ junk ++ suf) (pre.length + 1) x
        = pre ++ [x] ++ (x :: suf) := by
      have := setAt_slot (pre ++ [x]) junk suf x hj hs
      simpa using this
    have hlen : (pre ++ [x]).length = pre.length + 1 := by simp
    rw [hlen] at hk ⊢
    cases hx : x.isNullish with
    | true =>
      exfalso
      have hstage := get_of_nullish hx "stage"
      simp only [insertLoop, hget, hstage] at hk
      exact Option.noConfusion hk
    | false =>
      have hstep := insertLoop_succ coerceGt stage pre.length before
        (pre ++ [x] ++ junk ++ suf) (by rw [hget]; exact hx)
      rw [hget, hset] at hstep
      rw [hstep] at hk ⊢
      by_cases hc : continues coerceGt stage before x = true
      · simp only [hc, if_true] at hk ⊢
        obtain ⟨p1, p2, hsplit, hidx, htaps⟩ :=
          ih (beforeAfter before [x]) [x] (x :: suf) (by simp) (by simp) k hk
        exact ⟨p1, p2 ++ [x], by simp [hsplit], hidx, by simpa using htaps⟩
      · have hc' : continues coerceGt stage before x = false := by simpa using hc
        simp only [hc', Bool.false_eq_true, if_false] at hk ⊢
        have hk' : k = pre.length + 1 := by simpa using hk.symm
        subst hk'
        refine ⟨pre ++ [x], [], by simp, by simp, ?_⟩
        have := setAt_slot (pre ++ [x]) [x] suf item (by simp) (by simp)
        simpa using this

/-- Whenever `_insert` does not throw, the new taps are the old ones with `item` put in at one
place; the call slots are reset and nothing else changes. -/
theorem insert_shape (coerceGt : Atom → Int → Bool) (h : Hook) (item : Val)
    (hok : (_insert coerceGt h item).thrown = none) :
    ∃ p1 p2, h.taps = p1 ++ p2 ∧
      _insert coerceGt h item
        = ⟨{ _resetCompilation h with taps := p1 ++ item :: p2 }, none⟩ := by
  unfold _insert at hok ⊢
  cases hb : item.get "before" with
  | none => simp [hb] at hok
  | some b =>
    cases hs : item.get "stage" with
    | none => simp [hb, hs] at hok
    | some s =>
      simp only [hb, hs, _resetCompilation] at hok ⊢
      have hshape := insertLoop_shape coerceGt (stageOf s) item h.taps (beforeSet b) [] []
        (by simp) (fun _ => rfl)
      simp only [List.append_nil] at hshape
      generalize insertLoop coerceGt (stageOf s) h.taps.length (beforeSet b) h.taps = r
        at hok hshape
      obtain ⟨T, k⟩ := r
      cases k with
      | none => simp at hok
      | some k =>
        obtain ⟨p1, p2, hsplit, hk, htaps⟩ := hshape k rfl
        exact ⟨p1, p2, hsplit, by simp only [htaps]⟩

theorem lookup_map_setKey (k k' : String) (v : Atom) (fields : List (String × Atom)) :
    (fields.map (fun kv => if kv.1 = k' then (k', v) else kv)).lookup k
      = if k = k' then (if fields.any (fun kv => kv.1 == k') then some v else none)
        else fields.lookup k := by
  induction fields with
  | nil => simp
  | cons kv rest ih =>
    obtain ⟨k0, v0⟩ := kv
    rw [List.map_cons, List.any_cons]
    by_cases h0 : k0 = k'
    · have hhead : (if (k0, v0).1 = k' then (k', v) else (k0, v0)) = (k', v) := if_pos h0
      have hb : ((k0, v0).1 == k') = true := by simpa using h0
      rw [hhead, List.lookup_cons, ih, hb]
      by_cases hk : k = k'
      · have hkb : (k == k') = true := by simpa using hk
        simp [hkb, hk]
      · have hkb : (k == k') = false := by simpa using hk
        have hk0 : (k == k0) = false := by simpa [h0] using hk
        simp [hkb, hk, List.lookup_cons, hk0]
    · have hhead : (if (k0, v0).1 = k' then (k', v) else (k0, v0)) = (k0, v0) := if_neg h0
      have hb : ((k0, v0).1 == k') = false := by simpa using h0
      rw [hhead, List.lookup_cons, ih, hb]
      by_cases hk : k = k'
      · subst hk
        have hk0 : (k == k0) = false := by simpa using fun e => h0 e.symm
        rw [Bool.false_or]
        simp [hk0]
      · simp [hk, List.lookup_cons]

theorem lookup_append_single (k k' : String) (v : Atom) (fields : List (String × Atom)) :
    (fields ++ [(k', v)]).lookup k
      = match fields.lookup k with
        | some a => some a
        | none => if k = k' then some v else none := by
  induction fields with
  | nil =>
    by_cases hk : k = k'
    · subst hk; simp [List.lookup]
    · have : (k == k') = false := by simpa using hk
      simp [List.lookup, this, hk]
  | cons kv rest ih =>
    obtain ⟨k0, v0⟩ := kv
    by_cases hkk : k = k0
    · subst hkk; simp [List.lookup]
    · have : (k == k0) = false := by simpa using hkk
      simp [List.lookup, this, ih]

theorem lookup_eq_none_of_not_any (k : String) (fields : List (String × Atom))
    (h : fields.any (fun kv => kv.1 == k) = false) : fields.lookup k = none := by
  rw [List.lookup_eq_none_iff]
  intro p hp
  have := List.any_eq_false.1 h p hp
  have hne : p.1 ≠ k := by simpa using this
  simpa using fun e => hne e.symm

theorem mem_of_lookup_eq_some {k : String} {a : Atom} {fields : List (String × Atom)}
    (h : fields.lookup k = some a) : (k, a) ∈ fields := by
  obtain ⟨l1, l2, hl, -⟩ := List.lookup_eq_some_iff.1 h
  simp [hl]

/-- Reading a key after the write `o[k'] = v`. -/
theorem lookup_setKey (k k' : String) (v : Atom) (fields : List (String × Atom)) :
    (setKey fields k' v).lookup k = if k = k' then some v else fields.lookup k := by
  unfold setKey
  by_cases hany : fields.any (fun kv => kv.1 == k') = true
  · simp only [hany, if_true, lookup_map_setKey]
  · have hany' : fields.any (fun kv => kv.1 == k') = false := Bool.eq_false_iff.2 hany
    rw [if_neg hany, lookup_append_single]
    by_cases hk : k = k'
    · subst hk
      simp [lookup_eq_none_of_not_any k fields hany']
    · cases fields.lookup k <;> simp [hk]

/-- A key that the source does not own keeps the value of the target under
`Object.assign`. -/
theorem lookup_objectAssign_of_absent (k : String) (src : List (String × Atom)) :
    ∀ target : List (String × Atom), src.lookup k = none →
      (objectAssign target (.obj src)).lookup k = target.lookup k := by
  induction src with
  | nil => intro target _; rfl
  | cons kv rest ih =>
    intro target h
    obtain ⟨k0, v0⟩ := kv
    have hk : (k == k0) = false := by
      cases hb : k == k0 with
      | false => rfl
      | true => simp [List.lookup, hb] at h
    have hrest : rest.lookup k = none := by simpa [List.lookup, hk] using h
    have hne : k ≠ k0 := by simpa using hk
    have := ih (setKey target k0 v0) hrest
    simp only [objectAssign, ownEnumerable, List.foldl_cons] at this ⊢
    rw [this, lookup_setKey, if_neg hne]

/-- A key that the source owns (once) takes the value of the source under
`Object.assign`. -/
theorem lookup_objectAssign_of_present (k : String) (v : Atom) (src : List (String × Atom)) :
    ∀ target : List (String × Atom), (src.map Prod.fst).Nodup → src.lookup k = some v →
      (objectAssign target (.obj src)).lookup k = some v := by
  induction src with
  | nil => intro target _ h; simp at h
  | cons kv rest ih =>
    intro target hnd h
    obtain ⟨k0, v0⟩ := kv
    simp only [List.map_cons, List.nodup_cons] at hnd
    by_cases hk : k = k0
    · subst hk
      have hv : v0 = v := by simpa [List.lookup] using h
      subst hv
      have hrest : rest.lookup k = none := by
        cases hl : rest.lookup k with
        | none => rfl
        | some a =>
          exfalso
          apply hnd.1
          have hmem := mem_of_lookup_eq_some hl
          exact List.mem_map.2 ⟨(k, a), hmem, rfl⟩
      have := lookup_objectAssign_of_absent k rest (setKey target k v0) hrest
      simp only [objectAssign, ownEnumerable, List.foldl_cons] at this ⊢
      rw [this, lookup_setKey, if_pos rfl]
    · have hk' : (k == k0) = false := by simpa using hk
      have hrest : rest.lookup k = some v := by simpa [List.lookup, hk'] using h
      have := ih (setKey target k0 v0) hnd.2 hrest
      simpa only [objectAssign, ownEnumerable, List.foldl_cons] using this

theorem warnContext_name (h : Hook) (n : Atom) : warnContext h [("name", n)] = h := by
  simp [warnContext, Val.get, List.lookup, Atom.typeof]

/-- After the checks, `_tap` runs the register chain on the merged record and inserts the
result. -/
theorem tap_of_passes (coerceGt : Atom → Int → Bool) (h : Hook) (type : String) (options : Val)
    (fn : Atom) (fields : List (String × Atom)) (hv : PassesChecks options fields) :
    _tap coerceGt h type options fn
      = _insert coerceGt
          (_runRegisterInterceptors (warnContext h fields) (mergedRecord type fn fields)).2
          (_runRegisterInterceptors (warnContext h fields) (mergedRecord type fn fields)).1 := by
  rcases hv with ⟨s, hopt, hne, hf⟩ | ⟨hopt, s, hname, hne⟩
  · subst hopt hf
    rw [warnContext_name]
    simp [_tap, Val.get, List.lookup, Atom.typeof, hne, mergedRecord]
  · subst hopt
    by_cases hctx : (((Val.obj fields).get "context").getD .undefined).typeof ≠ .undefined
    · simp only [Val.get, Option.getD_some] at hctx
      simp [_tap, Val.typeof, Val.get, hname, Atom.typeof, hne, mergedRecord, warnContext, hctx]
    · simp only [Val.get, Option.getD_some] at hctx
      simp [_tap, Val.typeof, Val.get, hname, Atom.typeof, hne, mergedRecord, warnContext, hctx]

/-- The method `_insert` throws nothing but a TypeError. -/
theorem insert_thrown (coerceGt : Atom → Int → Bool) (h : Hook) (item : Val) :
    (_insert coerceGt h item).thrown = none ∨
      (_insert coerceGt h item).thrown = some .TypeError := by
  unfold _insert
  cases item.get "before" with
  | none => exact Or.inr rfl
  | some b =>
    cases item.get "stage" with
    | none => exact Or.inr rfl
    | some s =>
      simp only
      generalize insertLoop coerceGt (stageOf s) (_resetCompilation h).taps.length (beforeSet b)
        (_resetCompilation h).taps = r
      obtain ⟨T, k⟩ := r
      cases k with
      | none => exact Or.inr rfl
      | some k => exact Or.inl rfl

/-- What `_tap` throws when the options do not pass the checks, and that it throws neither
error when they do. -/
theorem tap_thrown_cases (coerceGt : Atom → Int → Bool) (h : Hook) (type : String)
    (options : Val) (fn : Atom) :
    (∃ fields, PassesChecks options fields) ∨
    ((options.typeof ≠ .string ∧ ¬ (options.typeof = .object ∧ options ≠ Val.null)) ∧
      _tap coerceGt h type options fn = ⟨h, some (.Error "Invalid tap options")⟩) ∨
    (((∃ s, options = .atom (.prim (.str s)) ∧ trim s = "") ∨
        (options.typeof = .object ∧ options ≠ Val.null ∧
          ¬ ∃ s, options.get "name" = some (.prim (.str s)) ∧ s ≠ "")) ∧
      _tap coerceGt h type options fn = ⟨h, some (.Error "Missing name for tap")⟩) := by
  cases options with
  | obj fields =>
    by_cases hname : ∃ s, fields.lookup "name" = some (.prim (.str s)) ∧ s ≠ ""
    · exact Or.inl ⟨fields, Or.inr ⟨rfl, hname⟩⟩
    · refine Or.inr (Or.inr ⟨Or.inr ⟨rfl, by simp, ?_⟩, ?_⟩)
      · rintro ⟨s, hs, hne⟩
        cases hl : fields.lookup "name" with
        | none => simp [Val.get, hl] at hs
        | some a =>
          simp only [Val.get, hl, Option.getD_some, Option.some.injEq] at hs
          exact hname ⟨s, by rw [hl, hs], hne⟩
      · cases hl : fields.lookup "name" with
        | none => simp [_tap, Val.typeof, Val.get, hl, Atom.typeof]
        | some a =>
          cases a with
          | fn id nm => simp [_tap, Val.typeof, Val.get, hl, Atom.typeof]
          | arr xs => simp [_tap, Val.typeof, Val.get, hl, Atom.typeof]
          | prim p =>
            cases p with
            | str s =>
              have : s = "" := by
                by_contra hne
                exact hname ⟨s, hl, hne⟩
              simp [_tap, Val.typeof, Val.get, hl, Atom.typeof, this]
            | undefined => simp [_tap, Val.typeof, Val.get, hl, Atom.typeof]
            | null => simp [_tap, Val.typeof, Val.get, hl, Atom.typeof]
            | bool b => simp [_tap, Val.typeof, Val.get, hl, Atom.typeof]
            | num n => simp [_tap, Val.typeof, Val.get, hl, Atom.typeof]
  | atom a =>
    cases a with
    | fn id nm =>
      exact Or.inr (Or.inl ⟨by simp [Val.typeof, Atom.typeof],
        by simp [_tap, Val.typeof, Atom.typeof]⟩)
    | arr xs =>
      exact Or.inr (Or.inr ⟨Or.inr ⟨rfl, by simp, by simp [Val.get]⟩,
        by simp [_tap, Val.typeof, Atom.typeof, Val.get]⟩)
    | prim p =>
      cases p with
      | str s =>
        by_cases hs : trim s = ""
        · exact Or.inr (Or.inr ⟨Or.inl ⟨s, rfl, hs⟩,
            by simp [_tap, Val.get, List.lookup, Atom.typeof, hs]⟩)
        · exact Or.inl ⟨_, Or.inl ⟨s, rfl, hs, rfl⟩⟩
      | undefined =>
        exact Or.inr (Or.inl ⟨by simp [Val.typeof, Atom.typeof],
          by simp [_tap, Val.typeof, Atom.typeof]⟩)
      | null =>
        exact Or.inr (Or.inl ⟨by simp [Val.typeof, Atom.typeof],
          by simp [_tap, Val.typeof, Atom.typeof]⟩)
      | bool b =>
        exact Or.inr (Or.inl ⟨by simp [Val.typeof, Atom.typeof],
          by simp [_tap, Val.typeof, Atom.typeof]⟩)
      | num n =>
        exact Or.inr (Or.inl ⟨by simp [Val.typeof, Atom.typeof],
          by simp [_tap, Val.typeof, Atom.typeof]⟩)

theorem passes_of_ok (coerceGt : Atom → Int → Bool) (h : Hook) (type : String) (options : Val)
    (fn : Atom) (hok : (_tap coerceGt h type options fn).thrown = none) :
    ∃ fields, PassesChecks options fields := by
  rcases tap_thrown_cases coerceGt h type options fn with hv | ⟨-, he⟩ | ⟨-, he⟩
  · exact hv
  · rw [he] at hok
    exact Option.noConfusion hok
  · rw [he] at hok
    exact Option.noConfusion hok

theorem runRegister_nil (h : Hook) (options : Val) (hi : h.interceptors = []) :
    _runRegisterInterceptors h options = (options, h) := by
  cases h
  simp only at hi
  subst hi
  rfl

/-- C5, as the code has it. A registration through `tap`, `tapAsync` or `tapPromise` on a hook
without interceptors that does not throw adds the merged record
`Object.assign({ type, fn }, options)` to the taps (`fields` is the options object after
the checks). Its `type` is "sync", "async" or "promise" and its `fn` is the callback when the
options do not own that key; a `type` or `fn` key of the options is kept, it replaces the
explicit value. -/
theorem tap_adds_merged_record (coerceGt : Atom → Int → Bool) (h : Hook) (options : Val)
    (fn : Atom) (entry : Hook → Val → Atom → Outcome) (type : String)
    (hentry : (entry, type) ∈
      [(tap coerceGt, "sync"), (tapAsync coerceGt, "async"), (tapPromise coerceGt, "promise")])
    (hnone : h.interceptors = [])
    (hok : (entry h options fn).thrown = none) :
    ∃ fields, PassesChecks options fields ∧
      (∃ p1 p2, h.taps = p1 ++ p2 ∧
        (entry h options fn).hook.taps = p1 ++ mergedRecord type fn fields :: p2) ∧
      (fields.lookup "type" = none →
        (mergedRecord type fn fields).get "type" = some (.prim (.str type))) ∧
      (fields.lookup "fn" = none → (mergedRecord type fn fields).get "fn" = some fn) ∧
      ((fields.map Prod.fst).Nodup → ∀ v, fields.lookup "type" = some v →
        (mergedRecord type fn fields).get "type" = some v) ∧
      ((fields.map Prod.fst).Nodup → ∀ v, fields.lookup "fn" = some v →
        (mergedRecord type fn fields).get "fn" = some v) := by
  have hdef : entry h options fn = _tap coerceGt h type options fn := by
    simp only [List.mem_cons, Prod.mk.injEq, List.mem_singleton, List.not_mem_nil,
      or_false] at hentry
    rcases hentry with ⟨he, ht⟩ | ⟨he, ht⟩ | ⟨he, ht⟩ <;> subst he ht <;> rfl
  rw [hdef] at hok ⊢
  obtain ⟨fields, hv⟩ := passes_of_ok coerceGt h type options fn hok
  have htap := tap_of_passes coerceGt h type options fn fields hv
  have hrun : _runRegisterInterceptors (warnContext h fields) (mergedRecord type fn fields)
      = (mergedRecord type fn fields, warnContext h fields) := by
    have hi : (warnContext h fields).interceptors = [] := by
      unfold warnContext
      split <;> simp [hnone]
    exact runRegister_nil _ _ hi
  rw [hrun] at htap
  simp only at htap
  rw [htap] at hok ⊢
  obtain ⟨p1, p2, hsplit, hins⟩ := insert_shape coerceGt _ _ hok
  have htaps : (warnContext h fields).taps = h.taps := by
    unfold warnContext
    split <;> rfl
  refine ⟨fields, hv, ⟨p1, p2, htaps ▸ hsplit, by rw [hins]⟩, ?_, ?_, ?_, ?_⟩
  · intro hl
    simp [mergedRecord, Val.get, lookup_objectAssign_of_absent "type" fields _ hl, List.lookup]
  · intro hl
    simp [mergedRecord, Val.get, lookup_objectAssign_of_absent "fn" fields _ hl, List.lookup]
  · intro hnd v hl
    simp [mergedRecord, Val.get, lookup_objectAssign_of_present "type" v fields _ hnd hl]
  · intro hnd v hl
    simp [mergedRecord, Val.get, lookup_objectAssign_of_present "fn" v fields _ hnd hl]

/-- C5 as stated fails. On a new hook, `tap` with the options
`{ name: "A", type: "custom", fn: g }` and the callback `f` adds a record whose `type` is
"custom" and whose `fn` is `g`: the keys of the options replace the explicit values. -/
theorem tap_type_fn_counterexample :
    (tap (fun _ _ => false) (Hook.new [] none)
        (.obj [("name", .prim (.str "A")), ("type", .prim (.str "custom")), ("fn", .fn 2 "g")])
        (.fn 1 "f")).thrown = none ∧
    (tap (fun _ _ => false) (Hook.new [] none)
        (.obj [("name", .prim (.str "A")), ("type", .prim (.str "custom")), ("fn", .fn 2 "g")])
        (.fn 1 "f")).hook.taps
      = [.obj [("type", .prim (.str "custom")), ("fn", .fn 2 "g"),
          ("name", .prim (.str "A"))]] := by
  decide

/-- C5 amended, at a concrete registration: `tapAsync("A", f)` on a new hook adds a record of
type "async" with callback `f`. -/
theorem tap_adds_merged_record_witness :
    ∃ fields, PassesChecks (.atom (.prim (.str "A"))) fields ∧
      (∃ p1 p2, (Hook.new [] none).taps = p1 ++ p2 ∧
        (tapAsync (fun _ _ => false) (Hook.new [] none) (.atom (.prim (.str "A")))
          (.fn 1 "f")).hook.taps = p1 ++ mergedRecord "async" (.fn 1 "f") fields :: p2) ∧
      (fields.lookup "type" = none →
        (mergedRecord "async" (.fn 1 "f") fields).get "type" = some (.prim (.str "async"))) ∧
      (fields.lookup "fn" = none →
        (mergedRecord "async" (.fn 1 "f") fields).get "fn" = some (.fn 1 "f")) ∧
      ((fields.map Prod.fst).Nodup → ∀ v, fields.lookup "type" = some v →
        (mergedRecord "async" (.fn 1 "f") fields).get "type" = some v) ∧
      ((fields.map Prod.fst).Nodup → ∀ v, fields.lookup "fn" = some v →
        (mergedRecord "async" (.fn 1 "f") fields).get "fn" = some v) :=
  tap_adds_merged_record (fun _ _ => false) (Hook.new [] none) (.atom (.prim (.str "A")))
    (.fn 1 "f") (tapAsync (fun _ _ => false)) "async" (by simp) rfl (by decide)

/-! ### Interceptors (C6, C7, C8) -/

/-- The loop of `intercept` on an array whose first `done.length` elements have been
processed: it replaces each remaining element by its image under `register`, calling
`register` once on each, in order. -/
theorem interceptLoop_map (register : Val → Val) (k : Nat) :
    ∀ (todo done : List Val) (fuel : Nat) (log : List Event), todo.length ≤ fuel →
      interceptLoop register k fuel done.length (done ++ todo) log
        = (done ++ todo.map register, log ++ todo.map (Event.register k)) := by
  intro todo
  induction todo with
  | nil =>
    intro done fuel log _
    cases fuel with
    | zero => simp [interceptLoop]
    | succ f => simp [interceptLoop]
  | cons x rest ih =>
    intro done fuel log hfuel
    cases fuel with
    | zero => simp at hfuel
    | succ f =>
      have hlt : done.length < (done ++ x :: rest).length := by simp
      have hget : getAt (done ++ x :: rest) done.length = x := getAt_append_cons done x rest
      have hset : setAt (done ++ x :: rest) done.length (register x)
          = (done ++ [register x]) ++ rest := by
        have := setAt_slot done [x] rest (register x) (by simp) (by simp)
        simpa using this
      have hlen : done.length + 1 = (done ++ [register x]).length := by simp
      rw [interceptLoop, if_pos hlt]
      simp only [hget, hset]
      rw [hlen, ih (done ++ [register x]) f (log ++ [Event.register k x])
        (by simpa using hfuel)]
      simp

/-- The iteration bound of `interceptLoop` is not felt: with the array length as bound the
loop has run to its end, and a larger bound gives the same result. -/
theorem interceptLoop_fuel (register : Val → Val) (k : Nat) (taps : List Val)
    (log : List Event) (extra : Nat) :
    interceptLoop register k (taps.length + extra) 0 taps log
      = interceptLoop register k taps.length 0 taps log := by
  have h1 := interceptLoop_map register k taps [] (taps.length + extra) log (by simp)
  have h2 := interceptLoop_map register k taps [] taps.length log (by simp)
  simp only [List.length_nil, List.nil_append] at h1 h2
  rw [h1, h2]

/-- C7. The method `intercept`: when the interceptor has a `register` function `r`, the taps
become the old taps with `r` applied to each one (same length, same positions; this holds
whatever `r` returns), `r` having been called exactly once on each old tap, in order; when it
has none, the taps are unchanged and no call is made. The interceptors become the old list
with the interceptor appended at the end. -/
theorem intercept_maps_taps (h : Hook) (interceptor : Interceptor) :
    (intercept h interceptor).taps
      = (match interceptor.register with
        | some r => h.taps.map r
        | none => h.taps) ∧
    (intercept h interceptor).taps.length = h.taps.length ∧
    (∀ r, interceptor.register = some r → ∀ (i : Nat) (t : Val), h.taps[i]? = some t →
      (intercept h interceptor).taps[i]? = some (r t)) ∧
    (intercept h interceptor).interceptors = h.interceptors ++ [interceptor] ∧
    (intercept h interceptor).log
      = h.log ++ (match interceptor.register with
        | some _ => h.taps.map (Event.register h.interceptors.length)
        | none => []) := by
  cases hr : interceptor.register with
  | none =>
    simp [intercept, hr, _resetCompilation]
  | some r =>
    have hloop := interceptLoop_map r h.interceptors.length h.taps [] h.taps.length h.log
      (Nat.le_refl _)
    simp only [List.length_nil, List.nil_append] at hloop
    have htaps : (intercept h interceptor).taps = h.taps.map r := by
      simp [intercept, hr, _resetCompilation, hloop]
    have hlog : (intercept h interceptor).log
        = h.log ++ h.taps.map (Event.register h.interceptors.length) := by
      simp [intercept, hr, _resetCompilation, hloop]
    refine ⟨htaps, by simp [htaps], ?_, by simp [intercept, hr, _resetCompilation], hlog⟩
    intro r' hr' i t ht
    have : r' = r := by simpa using hr'.symm
    subst this
    rw [htaps, List.getElem?_map, ht]
    rfl

/-- C6, the code at the failing input. With one tap A registered, attaching an interceptor
whose `register` returns `undefined` replaces the tap by `undefined`; the next registration
then throws a TypeError, when the loop of `_insert` reads `x.stage` of that element. -/
theorem intercept_register_undefined :
    (intercept (tap (fun _ _ => false) (Hook.new [] none) (.atom (.prim (.str "A")))
        (.fn 1 "f")).hook ⟨some (fun _ => Val.undefined), []⟩).taps = [Val.undefined] ∧
    (tap (fun _ _ => false)
      (intercept (tap (fun _ _ => false) (Hook.new [] none) (.atom (.prim (.str "A")))
        (.fn 1 "f")).hook ⟨some (fun _ => Val.undefined), []⟩)
      (.atom (.prim (.str "B"))) (.fn 1 "f")).thrown = some .TypeError := by
  decide

theorem registerCalls_nil (i : Nat) (candidate : Val) : registerCalls i [] candidate = [] := rfl

theorem registerCalls_cons (i : Nat) (interceptor : Interceptor) (rest : List Interceptor)
    (candidate : Val) :
    registerCalls i (interceptor :: rest) candidate
      = (if interceptor.register.isSome then [Event.register i candidate] else [])
        ++ registerCalls (i + 1) rest (applyRegisterChain [interceptor] candidate) := by
  unfold registerCalls
  rw [List.length_cons, List.range_succ_eq_map, List.filterMap_cons, List.filterMap_map]
  have hhead : (match (interceptor :: rest)[0]? with
      | some ic =>
        if ic.register.isSome then
          some (Event.register (i + 0) (applyRegisterChain ((interceptor :: rest).take 0) candidate))
        else none
      | none => none)
      = if interceptor.register.isSome then some (Event.register i candidate) else none := by
    simp [applyRegisterChain]
  rw [hhead]
  have htail : ((fun j =>
      match (interceptor :: rest)[j]? with
      | some ic =>
        if ic.register.isSome then
          some (Event.register (i + j) (applyRegisterChain ((interceptor :: rest).take j) candidate))
        else none
      | none => none) ∘ Nat.succ)
      = (fun j =>
      match rest[j]? with
      | some ic =>
        if ic.register.isSome then
          some (Event.register (i + 1 + j)
            (applyRegisterChain (rest.take j) (applyRegisterChain [interceptor] candidate)))
        else none
      | none => none) := by
    funext j
    simp only [Function.comp, Nat.succ_eq_add_one, List.getElem?_cons_succ, List.take_succ_cons]
    have h1 : i + (j + 1) = i + 1 + j := by omega
    have h2 : applyRegisterChain (interceptor :: rest.take j) candidate
        = applyRegisterChain (rest.take j) (applyRegisterChain [interceptor] candidate) := by
      simp [applyRegisterChain]
    rw [h1, h2]
  rw [htail]
  cases interceptor.register <;> simp

/-- The loop of `_runRegisterInterceptors` computes the specification's chain, and calls
`register` as `registerCalls` lists. -/
theorem registerLoop_spec :
    ∀ (interceptors : List Interceptor) (i : Nat) (options : Val) (log : List Event),
      registerLoop interceptors i options log
        = (applyRegisterChain interceptors options, log ++ registerCalls i interceptors options) := by
  intro interceptors
  induction interceptors with
  | nil => intro i options log; simp [registerLoop, applyRegisterChain, registerCalls_nil]
  | cons ic rest ih =>
    intro i options log
    rw [registerCalls_cons]
    cases hr : ic.register with
    | none =>
      simp [registerLoop, hr, ih, applyRegisterChain]
    | some r =>
      by_cases hu : r options = Val.undefined
      · simp [registerLoop, hr, ih, applyRegisterChain, hu]
      · simp [registerLoop, hr, ih, applyRegisterChain, hu]

/-- Each interceptor that has a `register` function is called exactly once by the chain, and
no other call is made. -/
theorem registerCalls_count :
    ∀ (interceptors : List Interceptor) (i : Nat) (candidate : Val) (j : Nat),
      ((registerCalls i interceptors candidate).filter (Event.isRegisterOf j)).length
        = if i ≤ j ∧ ((interceptors[j - i]?).bind (fun ic => ic.register)).isSome then 1
          else 0 := by
  intro interceptors
  induction interceptors with
  | nil => intro i candidate j; simp [registerCalls_nil]
  | cons ic rest ih =>
    intro i candidate j
    rw [registerCalls_cons, List.filter_append, List.length_append, ih]
    by_cases hij : i = j
    · subst hij
      have h1 : ¬ (i + 1 ≤ i) := by omega
      cases hr : ic.register <;> simp [Event.isRegisterOf, hr, h1]
    · by_cases hlt : i < j
      · have h1 : i + 1 ≤ j := hlt
        have h2 : i ≤ j := by omega
        have h3 : j - i = (j - (i + 1)) + 1 := by omega
        have h4 : (i == j) = false := by simpa using hij
        rw [h3, List.getElem?_cons_succ]
        cases hr : ic.register <;> simp [Event.isRegisterOf, h1, h2, h4]
      · have h1 : ¬ (i + 1 ≤ j) := by omega
        have h2 : ¬ (i ≤ j) := by omega
        have h4 : (i == j) = false := by simpa using hij
        cases hr : ic.register <;> simp [Event.isRegisterOf, h1, h2, h4]

theorem entry_eq_tap (coerceGt : Atom → Int → Bool) {entry : Hook → Val → Atom → Outcome}
    {type : String}
    (hentry : (entry, type) ∈
      [(tap coerceGt, "sync"), (tapAsync coerceGt, "async"), (tapPromise coerceGt, "promise")]) :
    entry = fun h options fn => _tap coerceGt h type options fn := by
  simp only [List.mem_cons, Prod.mk.injEq, List.mem_singleton, List.not_mem_nil,
    or_false] at hentry
  rcases hentry with ⟨he, ht⟩ | ⟨he, ht⟩ | ⟨he, ht⟩ <;> subst he ht <;> rfl

/-- After the checks, `_tap` inserts the result of the specification's chain, and the log has
grown by the calls of the chain. -/
theorem tap_eq_insert_chain (coerceGt : Atom → Int → Bool) (h : Hook) (type : String)
    (options : Val) (fn : Atom) (fields : List (String × Atom))
    (hv : PassesChecks options fields) :
    _tap coerceGt h type options fn
      = _insert coerceGt
          { warnContext h fields with
            log := (warnContext h fields).log
              ++ registerCalls 0 h.interceptors (mergedRecord type fn fields) }
          (applyRegisterChain h.interceptors (mergedRecord type fn fields)) := by
  have hi : (warnContext h fields).interceptors = h.interceptors := by
    unfold warnContext
    split <;> rfl
  rw [tap_of_passes coerceGt h type options fn fields hv]
  simp only [_runRegisterInterceptors, registerLoop_spec, hi]

/-- C8. A registration through `tap`, `tapAsync` or `tapPromise` whose options pass the checks
(`fields` is the options object after them): the record handed to `_insert` is the merged
record `{ type, fn, ...options }` folded through the register functions of the interceptors
in attachment order (`applyRegisterChain`). The hook handed to `_insert` differs from the hook
after the deprecation check only in its log, which has grown by the calls `registerCalls`; in
them each interceptor that has a `register` function is called exactly once, and no other
one. -/
theorem tap_inserts_chain_result (coerceGt : Atom → Int → Bool) (h : Hook) (options : Val)
    (fn : Atom) (fields : List (String × Atom)) (entry : Hook → Val → Atom → Outcome)
    (type : String)
    (hentry : (entry, type) ∈
      [(tap coerceGt, "sync"), (tapAsync coerceGt, "async"), (tapPromise coerceGt, "promise")])
    (hv : PassesChecks options fields) :
    entry h options fn
      = _insert coerceGt
          { warnContext h fields with
            log := (warnContext h fields).log
              ++ registerCalls 0 h.interceptors (mergedRecord type fn fields) }
          (applyRegisterChain h.interceptors (mergedRecord type fn fields)) ∧
    ∀ j, ((registerCalls 0 h.interceptors (mergedRecord type fn fields)).filter
        (Event.isRegisterOf j)).length
      = if ((h.interceptors[j]?).bind (fun ic => ic.register)).isSome then 1 else 0 := by
  rw [entry_eq_tap coerceGt hentry]
  refine ⟨tap_eq_insert_chain coerceGt h type options fn fields hv, ?_⟩
  intro j
  have := registerCalls_count h.interceptors 0 (mergedRecord type fn fields) j
  simpa using this

/-- C8 at a concrete hook: two interceptors, the first without `register`, the second with a
`register` that returns a fixed record; `tap("A", f)` inserts that record. -/
theorem tap_inserts_chain_result_witness :
    (tap (fun _ _ => false)
        { Hook.new [] none with
          interceptors := [⟨none, []⟩, ⟨some (fun _ => .obj [("name", .prim (.str "R"))]), []⟩] }
        (.atom (.prim (.str "A"))) (.fn 1 "f")).hook.taps
      = [.obj [("name", .prim (.str "R"))]] := by
  have h := (tap_inserts_chain_result (fun _ _ => false)
    { Hook.new [] none with
      interceptors := [⟨none, []⟩, ⟨some (fun _ => .obj [("name", .prim (.str "R"))]), []⟩] }
    (.atom (.prim (.str "A"))) (.fn 1 "f") [("name", .prim (.str (trim "A")))]
    (tap (fun _ _ => false)) "sync" (by simp)
    (Or.inl ⟨"A", rfl, by decide, rfl⟩)).1
  rw [h]
  decide

/-! ### Validation of the options (C9, C10) -/

theorem applyRegisterChain_not_nullish :
    ∀ (interceptors : List Interceptor) (candidate : Val),
      (∀ ic ∈ interceptors, ∀ r, ic.register = some r → ∀ v, r v ≠ Val.null) →
      candidate.isNullish = false →
      (applyRegisterChain interceptors candidate).isNullish = false := by
  intro interceptors
  induction interceptors with
  | nil => intro candidate _ hc; simpa [applyRegisterChain] using hc
  | cons ic rest ih =>
    intro candidate hreg hc
    have hstep : (applyRegisterChain [ic] candidate).isNullish = false := by
      cases hr : ic.register with
      | none => simpa [applyRegisterChain, hr] using hc
      | some r =>
        by_cases hu : r candidate = Val.undefined
        · simpa [applyRegisterChain, hr, hu] using hc
        · have hn := hreg ic (by simp) r hr candidate
          have : (r candidate).isNullish = false := by
            cases hv : r candidate with
            | obj fields => rfl
            | atom a =>
              cases a with
              | fn id nm => rfl
              | arr xs => rfl
              | prim p =>
                cases p <;> first | rfl | exact absurd hv hu | exact absurd hv hn
          simpa [applyRegisterChain, hr, hu] using this
    have := ih (applyRegisterChain [ic] candidate)
      (fun ic' hic' => hreg ic' (by simp [hic'])) hstep
    simpa [applyRegisterChain] using this

theorem passes_iff (options : Val) :
    (∃ fields, PassesChecks options fields) ↔
      ((∃ s, options = .atom (.prim (.str s)) ∧ trim s ≠ "") ∨
        (options.typeof = .object ∧ options ≠ Val.null ∧
          ∃ s, options.get "name" = some (.prim (.str s)) ∧ s ≠ "")) := by
  constructor
  · rintro ⟨fields, ⟨s, ho, hne, -⟩ | ⟨ho, s, hname, hne⟩⟩
    · exact Or.inl ⟨s, ho, hne⟩
    · subst ho
      exact Or.inr ⟨rfl, by simp, s, by simp [Val.get, hname], hne⟩
  · rintro (⟨s, ho, hne⟩ | ⟨hty, hnull, s, hname, hne⟩)
    · exact ⟨_, Or.inl ⟨s, ho, hne, rfl⟩⟩
    · cases options with
      | obj fields =>
        refine ⟨fields, Or.inr ⟨rfl, s, ?_, hne⟩⟩
        cases hl : fields.lookup "name" with
        | none => simp [Val.get, hl] at hname
        | some a => simpa [Val.get, hl] using hname
      | atom a =>
        cases a with
        | fn id nm => simp [Val.typeof, Atom.typeof] at hty
        | arr xs => simp [Val.get] at hname
        | prim p => cases p <;> simp [Val.typeof, Atom.typeof, Val.get] at hty hnull hname

/-- C9, as the code has it. A registration through `tap`, `tapAsync` or `tapPromise`: it
throws `Error("Invalid tap options")` exactly when the options are neither a string nor a
non-null object; it throws `Error("Missing name for tap")` exactly when the options are a
string whose trimmed value is empty, or a non-null object whose `name` is not a non-empty
string. On every hook, success implies options that are a string whose trimmed value is not
empty or a non-null object whose `name` is a non-empty string, and such options lead to
success or to the TypeError of a property read in `_insert`, never to one of the two errors.
When every tap in the registry is a record (not `undefined` or `null`) and no `register`
function returns `null`, such options lead to success, so that success is then equivalent to
them. -/
theorem tap_outcome_by_options (coerceGt : Atom → Int → Bool) (h : Hook) (options : Val)
    (fn : Atom) (entry : Hook → Val → Atom → Outcome) (type : String)
    (hentry : (entry, type) ∈
      [(tap coerceGt, "sync"), (tapAsync coerceGt, "async"), (tapPromise coerceGt, "promise")]) :
    ((entry h options fn).thrown = some (.Error "Invalid tap options") ↔
      (options.typeof ≠ .string ∧ ¬ (options.typeof = .object ∧ options ≠ Val.null))) ∧
    ((entry h options fn).thrown = some (.Error "Missing name for tap") ↔
      ((∃ s, options = .atom (.prim (.str s)) ∧ trim s = "") ∨
        (options.typeof = .object ∧ options ≠ Val.null ∧
          ¬ ∃ s, options.get "name" = some (.prim (.str s)) ∧ s ≠ ""))) ∧
    ((∀ t ∈ h.taps, t.isNullish = false) →
      (∀ ic ∈ h.interceptors, ∀ r, ic.register = some r → ∀ v, r v ≠ Val.null) →
      ((entry h options fn).thrown = none ↔
        ((∃ s, options = .atom (.prim (.str s)) ∧ trim s ≠ "") ∨
          (options.typeof = .object ∧ options ≠ Val.null ∧
            ∃ s, options.get "name" = some (.prim (.str s)) ∧ s ≠ "")))) ∧
    ((entry h options fn).thrown = none →
      ((∃ s, options = .atom (.prim (.str s)) ∧ trim s ≠ "") ∨
        (options.typeof = .object ∧ options ≠ Val.null ∧
          ∃ s, options.get "name" = some (.prim (.str s)) ∧ s ≠ ""))) ∧
    (((∃ s, options = .atom (.prim (.str s)) ∧ trim s ≠ "") ∨
        (options.typeof = .object ∧ options ≠ Val.null ∧
          ∃ s, options.get "name" = some (.prim (.str s)) ∧ s ≠ "")) →
      (entry h options fn).thrown = none ∨ (entry h options fn).thrown = some .TypeError) := by
  rw [entry_eq_tap coerceGt hentry]
  simp only
  rcases tap_thrown_cases coerceGt h type options fn with ⟨fields, hv⟩ | ⟨hinv, he⟩ | ⟨hmiss, he⟩
  · -- the options pass the checks
    have hvalid := (passes_iff options).1 ⟨fields, hv⟩
    have htap := tap_eq_insert_chain coerceGt h type options fn fields hv
    have hthrown := insert_thrown coerceGt
      { warnContext h fields with
        log := (warnContext h fields).log
          ++ registerCalls 0 h.interceptors (mergedRecord type fn fields) }
      (applyRegisterChain h.interceptors (mergedRecord type fn fields))
    rw [← htap] at hthrown
    have hnoerr : ∀ m, (_tap coerceGt h type options fn).thrown ≠ some (.Error m) := by
      intro m hm
      rcases hthrown with h1 | h1 <;> rw [h1] at hm <;> simp at hm
    refine ⟨⟨fun hm => absurd hm (hnoerr _), ?_⟩, ⟨fun hm => absurd hm (hnoerr _), ?_⟩, ?_,
      fun _ => hvalid, fun _ => hthrown⟩
    · rintro ⟨hns, hno⟩
      rcases hvalid with ⟨s, ho, -⟩ | ⟨hty, hnull, -⟩
      · exact (hns (by rw [ho]; rfl)).elim
      · exact (hno ⟨hty, hnull⟩).elim
    · rintro (⟨s, ho, hs⟩ | ⟨hty, hnull, hname⟩)
      · rcases hvalid with ⟨s', ho', hs'⟩ | ⟨hty, -, -⟩
        · rw [ho] at ho'
          have : s = s' := by simpa using ho'
          subst this
          exact (hs' hs).elim
        · rw [ho] at hty
          simp [Val.typeof, Atom.typeof] at hty
      · rcases hvalid with ⟨s', ho', -⟩ | ⟨-, -, hname'⟩
        · rw [ho'] at hty
          simp [Val.typeof, Atom.typeof] at hty
        · exact (hname hname').elim
    · intro hread hreg
      refine ⟨fun _ => hvalid, fun _ => ?_⟩
      have hitem := applyRegisterChain_not_nullish h.interceptors (mergedRecord type fn fields)
        hreg rfl
      have htaps : ∀ t ∈ ({ warnContext h fields with
          log := (warnContext h fields).log
            ++ registerCalls 0 h.interceptors (mergedRecord type fn fields) } : Hook).taps,
          t.isNullish = false := by
        intro t ht
        apply hread t
        have : (warnContext h fields).taps = h.taps := by
          unfold warnContext
          split <;> rfl
        simpa [this] using ht
      obtain ⟨p1, p2, -, hins, -, -⟩ := insert_split coerceGt _ _ htaps hitem
      rw [htap, hins]
  · -- neither a string nor a non-null object
    rw [he]
    have hnv : ¬ ((∃ s, options = .atom (.prim (.str s)) ∧ trim s ≠ "") ∨
        (options.typeof = .object ∧ options ≠ Val.null ∧
          ∃ s, options.get "name" = some (.prim (.str s)) ∧ s ≠ "")) := by
      rintro (⟨s, ho, -⟩ | ⟨hty, hnull, -⟩)
      · exact hinv.1 (by rw [ho]; rfl)
      · exact hinv.2 ⟨hty, hnull⟩
    refine ⟨⟨fun _ => hinv, fun _ => rfl⟩, ⟨fun hm => ?_, ?_⟩, ?_,
      fun hm => by simp at hm, fun hv => absurd hv hnv⟩
    · simp at hm
    · rintro (⟨s, ho, -⟩ | ⟨hty, hnull, -⟩)
      · exact (hinv.1 (by rw [ho]; rfl)).elim
      · exact (hinv.2 ⟨hty, hnull⟩).elim
    · intro _ _
      exact ⟨fun hm => by simp at hm, fun hv => absurd hv hnv⟩
  · -- the name is missing
    rw [he]
    have hnv : ¬ ((∃ s, options = .atom (.prim (.str s)) ∧ trim s ≠ "") ∨
        (options.typeof = .object ∧ options ≠ Val.null ∧
          ∃ s, options.get "name" = some (.prim (.str s)) ∧ s ≠ "")) := by
      rintro (⟨s, ho, hs⟩ | ⟨hty, hnull, hname⟩)
      · rcases hmiss with ⟨s', ho', hs'⟩ | ⟨hty, -, -⟩
        · rw [ho] at ho'
          have : s = s' := by simpa using ho'
          subst this
          exact hs hs'
        · rw [ho] at hty
          simp [Val.typeof, Atom.typeof] at hty
      · rcases hmiss with ⟨s', ho', -⟩ | ⟨-, -, hname'⟩
        · rw [ho'] at hty
          simp [Val.typeof, Atom.typeof] at hty
        · exact hname' hname
    refine ⟨⟨fun hm => by simp at hm, ?_⟩, ⟨fun _ => hmiss, fun _ => rfl⟩, ?_,
      fun hm => by simp at hm, fun hv => absurd hv hnv⟩
    · rintro ⟨hns, hno⟩
      rcases hmiss with ⟨s, ho, -⟩ | ⟨hty, hnull, -⟩
      · exact (hns (by rw [ho]; rfl)).elim
      · exact (hno ⟨hty, hnull⟩).elim
    · intro _ _
      exact ⟨fun hm => by simp at hm, fun hv => absurd hv hnv⟩

/-- C9 at concrete inputs: on a new hook `tap("A", f)` succeeds, `tap(" ", f)` throws
"Missing name for tap" and `tap(7, f)` throws "Invalid tap options". -/
theorem tap_outcome_by_options_witness :
    (tap (fun _ _ => false) (Hook.new [] none) (.atom (.prim (.str "A"))) (.fn 1 "f")).thrown
      = none ∧
    (tap (fun _ _ => false) (Hook.new [] none) (.atom (.prim (.str " "))) (.fn 1 "f")).thrown
      = some (.Error "Missing name for tap") ∧
    (tap (fun _ _ => false) (Hook.new [] none) (.atom (.prim (.num 7))) (.fn 1 "f")).thrown
      = some (.Error "Invalid tap options") :=
  ⟨((tap_outcome_by_options (fun _ _ => false) (Hook.new [] none) (.atom (.prim (.str "A")))
      (.fn 1 "f") (tap (fun _ _ => false)) "sync" (by simp)).2.2.1
      (by simp [Hook.new]) (by simp [Hook.new])).2 (Or.inl ⟨"A", rfl, by decide⟩),
    (tap_outcome_by_options (fun _ _ => false) (Hook.new [] none) (.atom (.prim (.str " ")))
      (.fn 1 "f") (tap (fun _ _ => false)) "sync" (by simp)).2.1.2
      (Or.inl ⟨" ", rfl, by decide⟩),
    (tap_outcome_by_options (fun _ _ => false) (Hook.new [] none) (.atom (.prim (.num 7)))
      (.fn 1 "f") (tap (fun _ _ => false)) "sync" (by simp)).1.2
      ⟨by decide, by decide⟩⟩

/-- C9 as stated fails: valid options do not always lead to success. On a new hook with an
interceptor whose `register` returns `null`, `tap("A", f)` throws a TypeError, when `_insert`
reads `item.before` of `null`. And after `tap("A", f)` and an interceptor whose `register`
returns `undefined`, `tap("B", f)` throws a TypeError, when the loop of `_insert` reads
`x.stage` of the element `undefined`. Both strings have a trimmed value that is not empty. -/
theorem tap_valid_options_typeError_counterexample :
    (trim "A" ≠ "" ∧
      (tap (fun _ _ => false)
        (intercept (Hook.new [] none) ⟨some (fun _ => Val.null), []⟩)
        (.atom (.prim (.str "A"))) (.fn 1 "f")).thrown = some .TypeError) ∧
    (trim "B" ≠ "" ∧
      (∀ v, (fun _ : Val => Val.undefined) v ≠ Val.null) ∧
      (tapAsync (fun _ _ => false)
        (intercept (tap (fun _ _ => false) (Hook.new [] none) (.atom (.prim (.str "A")))
          (.fn 1 "f")).hook ⟨some (fun _ => Val.undefined), []⟩)
        (.atom (.prim (.str "B"))) (.fn 1 "f")).thrown = some .TypeError) :=
  ⟨⟨by decide, by decide⟩, by decide,
    fun _ => (by decide : Val.undefined ≠ Val.null), by decide⟩

/-- C10. For every hook, every calling convention, every string `s` and every callback,
registering with the string `s` has the same outcome (the same hook after the call, with its
taps, interceptors, call slots and log, and the same exception or none) as registering with
the object `{ name: s.trim() }`. -/
theorem tap_string_eq_name_object (coerceGt : Atom → Int → Bool) (h : Hook) (s : String)
    (fn : Atom) (entry : Hook → Val → Atom → Outcome) (type : String)
    (hentry : (entry, type) ∈
      [(tap coerceGt, "sync"), (tapAsync coerceGt, "async"), (tapPromise coerceGt, "promise")]) :
    entry h (.atom (.prim (.str s))) fn = entry h (.obj [("name", .prim (.str (trim s)))]) fn := by
  rw [entry_eq_tap coerceGt hentry]
  simp only
  by_cases hs : trim s = ""
  · simp [_tap, Val.typeof, Val.get, List.lookup, Atom.typeof, hs]
  · rw [tap_of_passes coerceGt h type (.atom (.prim (.str s))) fn
        [("name", .prim (.str (trim s)))] (Or.inl ⟨s, rfl, hs, rfl⟩),
      tap_of_passes coerceGt h type (.obj [("name", .prim (.str (trim s)))]) fn
        [("name", .prim (.str (trim s)))] (Or.inr ⟨rfl, trim s, by simp [List.lookup], hs⟩)]

/-- C10 at a concrete input: `tapPromise("  A ", f)` and
`tapPromise({ name: "A" }, f)` add the same record to a new hook. -/
theorem tap_string_eq_name_object_witness :
    (tapPromise (fun _ _ => false) (Hook.new [] none) (.atom (.prim (.str "  A ")))
        (.fn 1 "f")).hook.taps
      = (tapPromise (fun _ _ => false) (Hook.new [] none) (.obj [("name", .prim (.str "A"))])
        (.fn 1 "f")).hook.taps :=
  have h := tap_string_eq_name_object (fun _ _ => false) (Hook.new [] none) "  A " (.fn 1 "f")
    (tapPromise (fun _ _ => false)) "promise" (by simp)
  have ht : trim "  A " = "A" := by decide
  by rw [h, ht]

/-! ### Scoped views (C11, C12) -/

/-- C11, the code at the failing input. Through the view `withOptions({})`, the string
`" A "` registers a tap named `" A "`: the view turns it into `{ name: " A " }` without
trimming, and `_tap` does not trim the name of an object. The object `{ name: "A" }` through
the same view, and the string `" A "` on the hook itself, register a tap named `"A"`. And
the string `"  "` registers a tap through the view, while on the hook it throws
"Missing name for tap". -/
theorem view_string_not_trimmed :
    ((View.tap (fun _ _ => false) (withOptions (Hook.new [] none) (.obj [])) (Hook.new [] none)
        (.atom (.prim (.str " A "))) (.fn 1 "f")).hook.taps.map nameOf = [.prim (.str " A ")] ∧
    (View.tap (fun _ _ => false) (withOptions (Hook.new [] none) (.obj [])) (Hook.new [] none)
        (.obj [("name", .prim (.str (trim " A ")))]) (.fn 1 "f")).hook.taps.map nameOf
      = [.prim (.str "A")] ∧
    (tap (fun _ _ => false) (Hook.new [] none)
        (.atom (.prim (.str " A "))) (.fn 1 "f")).hook.taps.map nameOf = [.prim (.str "A")]) ∧
    ((View.tap (fun _ _ => false) (withOptions (Hook.new [] none) (.obj [])) (Hook.new [] none)
        (.atom (.prim (.str "  "))) (.fn 1 "f")).thrown = none ∧
    (tap (fun _ _ => false) (Hook.new [] none)
        (.atom (.prim (.str "  "))) (.fn 1 "f")).thrown
      = some (.Error "Missing name for tap")) := by
  decide

theorem firstKeys_append_single (l : List (String × Atom)) (k : String) (v : Atom) :
    firstKeys (l ++ [(k, v)])
      = if k ∈ firstKeys l then firstKeys l else firstKeys l ++ [k] := by
  simp [firstKeys, List.foldl_append]

theorem lastValue_append_single (l : List (String × Atom)) (k k' : String) (v : Atom) :
    lastValue (l ++ [(k, v)]) k' = if k' = k then v else lastValue l k' := by
  by_cases h : k' = k
  · subst h
    simp [lastValue]
  · have hb : (k' == k) = false := by simpa using h
    simp [lastValue, List.lookup_cons, hb, h]

/-- Copying properties one by one onto the empty object gives every key once, in the order
of first appearance, with its last value. -/
theorem foldl_setKey_eq (l : List (String × Atom)) :
    l.foldl (fun t kv => setKey t kv.1 kv.2) []
      = (firstKeys l).map (fun k => (k, lastValue l k)) := by
  induction l using List.reverseRecOn with
  | nil => rfl
  | append_singleton l kv ih =>
    obtain ⟨k, v⟩ := kv
    rw [List.foldl_append, List.foldl_cons, List.foldl_nil, ih, firstKeys_append_single]
    have hany : ((firstKeys l).map (fun k' => (k', lastValue l k'))).any (fun kv => kv.1 == k)
        = decide (k ∈ firstKeys l) := by
      rw [Bool.eq_iff_iff]
      simp [List.any_eq_true]
    unfold setKey
    rw [hany]
    by_cases hk : k ∈ firstKeys l
    · simp only [hk, decide_True, if_true, List.map_map]
      apply List.map_congr_left
      intro k' _
      by_cases hkk : k' = k
      · subst hkk
        simp [lastValue_append_single]
      · simp [lastValue_append_single, hkk]
    · simp only [hk, decide_False, Bool.false_eq_true, if_false, List.map_append, List.map_cons,
        List.map_nil]
      congr 1
      · apply List.map_congr_left
        intro k' hk'
        have hkk : k' ≠ k := fun e => hk (e ▸ hk')
        simp [lastValue_append_single, hkk]
      · simp [lastValue_append_single]

theorem firstKeys_nodup (l : List (String × Atom)) : (firstKeys l).Nodup := by
  induction l using List.reverseRecOn with
  | nil => simp [firstKeys]
  | append_singleton l kv ih =>
    obtain ⟨k, v⟩ := kv
    rw [firstKeys_append_single]
    by_cases hk : k ∈ firstKeys l
    · simpa [hk] using ih
    · simp only [hk, if_false]
      rw [List.nodup_append]
      refine ⟨ih, by simp, ?_⟩
      intro a ha hb
      have : a = k := by simpa using hb
      subst this
      exact hk ha

/-- Copying properties with distinct keys, none of them owned yet, appends them. -/
theorem foldl_setKey_fresh :
    ∀ (l acc : List (String × Atom)), (l.map Prod.fst).Nodup →
      (∀ kv ∈ l, ∀ kv' ∈ acc, kv'.1 ≠ kv.1) →
      l.foldl (fun t kv => setKey t kv.1 kv.2) acc = acc ++ l := by
  intro l
  induction l with
  | nil => intro acc _ _; simp
  | cons kv rest ih =>
    intro acc hnd hfresh
    obtain ⟨k, v⟩ := kv
    simp only [List.map_cons, List.nodup_cons] at hnd
    have hany : acc.any (fun kv => kv.1 == k) = false := by
      rw [List.any_eq_false]
      intro kv' hkv'
      have := hfresh (k, v) (by simp) kv' hkv'
      simpa using this
    have hset : setKey acc k v = acc ++ [(k, v)] := by
      simp [setKey, hany]
    rw [List.foldl_cons, hset, ih (acc ++ [(k, v)]) hnd.2]
    · simp
    · intro kv hkv kv' hkv'
      rcases List.mem_append.1 hkv' with h1 | h1
      · exact hfresh kv (by simp [hkv]) kv' h1
      · have : kv' = (k, v) := by simpa using h1
        subst this
        intro e
        apply hnd.1
        exact List.mem_map.2 ⟨kv, hkv, e.symm⟩

/-- The call `Object.assign({}, a, b)` on two objects is the specification's merge of the
two. -/
theorem objectAssign_two (a b : List (String × Atom)) :
    objectAssign (objectAssign [] (.obj a)) (.obj b) = mergeRecords [a, b] := by
  simp only [objectAssign, ownEnumerable, mergeRecords, List.flatten, List.append_nil]
  rw [← List.foldl_append, foldl_setKey_eq]

/-- Merging a third object over the merge of two is the merge of the three. -/
theorem objectAssign_three (a b c : List (String × Atom)) :
    objectAssign (objectAssign [] (.obj (mergeRecords [a, b]))) (.obj c)
      = mergeRecords [a, b, c] := by
  have hfresh : objectAssign [] (.obj (mergeRecords [a, b])) = mergeRecords [a, b] := by
    simp only [objectAssign, ownEnumerable]
    rw [foldl_setKey_fresh (mergeRecords [a, b]) []]
    · simp
    · simp only [mergeRecords, List.map_map]
      have : (Prod.fst ∘ fun k => (k, lastValue [a, b].flatten k)) = id := by
        funext k; rfl
      rw [this, List.map_id]
      exact firstKeys_nodup _
    · intro _ _ kv' hkv'
      simp at hkv'
  rw [hfresh]
  simp only [objectAssign, ownEnumerable, mergeRecords, List.flatten, List.append_nil]
  rw [← foldl_setKey_eq, ← List.foldl_append, foldl_setKey_eq, List.append_assoc]

theorem mem_firstKeys (l : List (String × Atom)) (k : String) :
    k ∈ firstKeys l ↔ ∃ v, (k, v) ∈ l := by
  induction l using List.reverseRecOn with
  | nil => simp [firstKeys]
  | append_singleton l kv ih =>
    obtain ⟨k0, v0⟩ := kv
    rw [firstKeys_append_single]
    by_cases hk : k0 ∈ firstKeys l
    · simp only [hk, if_true, ih, List.mem_append, List.mem_singleton, Prod.mk.injEq]
      constructor
      · rintro ⟨v, hv⟩
        exact ⟨v, Or.inl hv⟩
      · rintro ⟨v, hv | ⟨h1, -⟩⟩
        · exact ⟨v, hv⟩
        · subst h1
          exact ih.1 hk
    · simp only [hk, if_false, List.mem_append, ih, List.mem_singleton, Prod.mk.injEq]
      constructor
      · rintro (⟨v, hv⟩ | h1)
        · exact ⟨v, Or.inl hv⟩
        · exact ⟨v0, Or.inr ⟨h1, rfl⟩⟩
      · rintro ⟨v, hv | ⟨h1, -⟩⟩
        · exact Or.inl ⟨v, hv⟩
        · exact Or.inr h1

/-- In the specification's merge, the value of a key is the value in the last object that
owns it. -/
theorem lookup_mergeRecords (objs : List (List (String × Atom))) (k : String) :
    (mergeRecords objs).lookup k = objs.flatten.reverse.lookup k := by
  unfold mergeRecords
  generalize objs.flatten = l
  have hmap : ∀ ks : List String,
      (ks.map (fun k' => (k', lastValue l k'))).lookup k
        = if k ∈ ks then some (lastValue l k) else none := by
    intro ks
    induction ks with
    | nil => simp
    | cons k0 rest ih =>
      by_cases hk : k = k0
      · subst hk
        simp [List.lookup_cons]
      · have hb : (k == k0) = false := by simpa using hk
        simp [List.lookup_cons, hb, ih, hk]
  rw [hmap]
  cases hl : l.reverse.lookup k with
  | none =>
    have hnot : k ∉ firstKeys l := by
      rw [mem_firstKeys]
      rintro ⟨v, hv⟩
      rw [List.lookup_eq_none_iff] at hl
      have := hl (k, v) (by simpa using hv)
      simp at this
    simp [hnot]
  | some a =>
    have hin : k ∈ firstKeys l := by
      rw [mem_firstKeys]
      have := mem_of_lookup_eq_some hl
      exact ⟨a, by simpa using this⟩
    simp [hin, lastValue, hl]

theorem lookup_of_mem_of_nodup :
    ∀ (l : List (String × Atom)) (k : String) (v : Atom), (l.map Prod.fst).Nodup →
      (k, v) ∈ l → l.lookup k = some v := by
  intro l
  induction l with
  | nil => intro k v _ h; simp at h
  | cons kv rest ih =>
    intro k v hnd hmem
    obtain ⟨k0, v0⟩ := kv
    simp only [List.map_cons, List.nodup_cons] at hnd
    rcases List.mem_cons.1 hmem with h | h
    · have h1 : k = k0 ∧ v = v0 := by simpa using h
      rw [h1.1, h1.2]
      simp [List.lookup_cons]
    · have hne : k ≠ k0 := by
        intro e
        apply hnd.1
        exact List.mem_map.2 ⟨(k, v), h, e⟩
      have hb : (k == k0) = false := by simpa using hne
      simp [List.lookup_cons, hb, ih k v hnd.2 h]

/-- In an object (distinct keys) the last entry for a key is its only entry. -/
theorem lookup_reverse_of_nodup (l : List (String × Atom)) (k : String)
    (hnd : (l.map Prod.fst).Nodup) : l.reverse.lookup k = l.lookup k := by
  have hnd' : (l.reverse.map Prod.fst).Nodup := by
    rw [List.map_reverse]
    exact List.nodup_reverse.2 hnd
  cases hl : l.lookup k with
  | none =>
    rw [List.lookup_eq_none_iff] at hl ⊢
    intro p hp
    exact hl p (by simpa using hp)
  | some v =>
    have hmem := mem_of_lookup_eq_some hl
    exact lookup_of_mem_of_nodup l.reverse k v hnd' (by simpa using hmem)

/-- C12. Registering the options object `o` through the view `withOptions(F)` has the same
outcome as registering the specification's merge of `F` and `o` on the hook, and through the
nested view `withOptions(F).withOptions(G)` the same outcome as registering the merge of `F`,
`G` and `o`, for each of `tap`, `tapAsync` and `tapPromise`. In the merge of objects, the
value of a key is the value of the last object that owns it: `o` wins over `G`, which wins
over `F`. The view's `intercept` and `isUsed` are those of the hook. -/
theorem view_registers_merged (coerceGt : Atom → Int → Bool) (h : Hook)
    (F G o : List (String × Atom)) (fn : Atom) (interceptor : Interceptor) :
    (View.tap coerceGt (withOptions h (.obj F)) h (.obj o) fn
        = tap coerceGt h (.obj (mergeRecords [F, o])) fn ∧
      View.tapAsync coerceGt (withOptions h (.obj F)) h (.obj o) fn
        = tapAsync coerceGt h (.obj (mergeRecords [F, o])) fn ∧
      View.tapPromise coerceGt (withOptions h (.obj F)) h (.obj o) fn
        = tapPromise coerceGt h (.obj (mergeRecords [F, o])) fn) ∧
    (View.tap coerceGt ((withOptions h (.obj F)).withOptions h (.obj G)) h (.obj o) fn
        = tap coerceGt h (.obj (mergeRecords [F, G, o])) fn ∧
      View.tapAsync coerceGt ((withOptions h (.obj F)).withOptions h (.obj G)) h (.obj o) fn
        = tapAsync coerceGt h (.obj (mergeRecords [F, G, o])) fn ∧
      View.tapPromise coerceGt ((withOptions h (.obj F)).withOptions h (.obj G)) h (.obj o) fn
        = tapPromise coerceGt h (.obj (mergeRecords [F, G, o])) fn) ∧
    ((F.map Prod.fst).Nodup → (G.map Prod.fst).Nodup → (o.map Prod.fst).Nodup →
      ∀ k, (mergeRecords [F, o]).lookup k = (o.lookup k).or (F.lookup k) ∧
        (mergeRecords [F, G, o]).lookup k
          = (o.lookup k).or ((G.lookup k).or (F.lookup k))) ∧
    View.intercept (withOptions h (.obj F)) h interceptor = intercept h interceptor ∧
    View.isUsed (withOptions h (.obj F)) h = isUsed h := by
  have h2 : mergeOptions (.obj F) (.obj o) = .obj (mergeRecords [F, o]) := by
    simp only [mergeOptions, objectAssign_two]
  have h3 : mergeOptions (mergeOptions (.obj F) (.obj G)) (.obj o)
      = .obj (mergeRecords [F, G, o]) := by
    have hFG : mergeOptions (.obj F) (.obj G) = .obj (mergeRecords [F, G]) := by
      simp only [mergeOptions, objectAssign_two]
    rw [hFG]
    simp only [mergeOptions, objectAssign_three]
  refine ⟨⟨?_, ?_, ?_⟩, ⟨?_, ?_, ?_⟩, ?_, rfl, rfl⟩
  · simp only [View.tap, withOptions, h2]
  · simp only [View.tapAsync, withOptions, h2]
  · simp only [View.tapPromise, withOptions, h2]
  · simp only [View.tap, View.withOptions, withOptions, h3]
  · simp only [View.tapAsync, View.withOptions, withOptions, h3]
  · simp only [View.tapPromise, View.withOptions, withOptions, h3]
  · intro hF hG ho k
    rw [lookup_mergeRecords, lookup_mergeRecords]
    simp only [List.flatten, List.append_nil, List.reverse_append, List.lookup_append,
      lookup_reverse_of_nodup F k hF, lookup_reverse_of_nodup G k hG,
      lookup_reverse_of_nodup o k ho]
    cases o.lookup k <;> simp

/-! ### What the methods leave alone -/

theorem setAt_length_ge (xs : List Val) (i : Nat) (v : Val) :
    xs.length ≤ (setAt xs i v).length := by
  unfold setAt
  split
  · simp
  · simp only [List.length_append, List.length_replicate, List.length_singleton]
    omega

theorem insertLoop_length_ge (coerceGt : Atom → Int → Bool) (stage : Int) :
    ∀ (i : Nat) (before : Option JSSet) (taps : List Val),
      taps.length ≤ (insertLoop coerceGt stage i before taps).1.length := by
  intro i
  induction i with
  | zero => intro before taps; simp [insertLoop]
  | succ i ih =>
    intro before taps
    have hset := setAt_length_ge taps (i + 1) (getAt taps i)
    cases hx : (getAt taps i).isNullish with
    | true =>
      have hstage := get_of_nullish hx "stage"
      simp only [insertLoop, hstage]
      exact hset
    | false =>
      rw [insertLoop_succ coerceGt stage i before taps hx]
      split
      · exact le_trans hset (ih _ _)
      · exact hset

/-- The method `_insert` resets the three call slots, writes the taps, which do not get
fewer, and leaves every other field alone, whether or not it throws. -/
theorem insert_frame (coerceGt : Atom → Int → Bool) (h : Hook) (item : Val) :
    ∃ T, (_insert coerceGt h item).hook = { _resetCompilation h with taps := T } ∧
      h.taps.length ≤ T.length := by
  unfold _insert
  cases item.get "before" with
  | none => exact ⟨h.taps, rfl, Nat.le_refl _⟩
  | some b =>
    cases item.get "stage" with
    | none => exact ⟨h.taps, rfl, Nat.le_refl _⟩
    | some s =>
      simp only
      have hlen := insertLoop_length_ge coerceGt (stageOf s) (_resetCompilation h).taps.length
        (beforeSet b) (_resetCompilation h).taps
      generalize insertLoop coerceGt (stageOf s) (_resetCompilation h).taps.length (beforeSet b)
        (_resetCompilation h).taps = r at hlen
      obtain ⟨T, k⟩ := r
      cases k with
      | none => exact ⟨T, rfl, hlen⟩
      | some k => exact ⟨setAt T k item, rfl, le_trans hlen (setAt_length_ge _ _ _)⟩

/-- A registration either fails a check and returns the hook as it was, or goes through
`_insert`: then the three call slots are reset, the taps and the log are written, and every
other field is left alone. -/
theorem tap_frame (coerceGt : Atom → Int → Bool) (h : Hook) (type : String) (options : Val)
    (fn : Atom) :
    ((_tap coerceGt h type options fn).hook = h ∧
      ∃ m, (_tap coerceGt h type options fn).thrown = some (.Error m)) ∨
    (∃ T L, (_tap coerceGt h type options fn).hook
        = { _resetCompilation h with taps := T, log := L } ∧ h.taps.length ≤ T.length ∧
      ((_tap coerceGt h type options fn).thrown = none ∨
        (_tap coerceGt h type options fn).thrown = some .TypeError)) := by
  rcases tap_thrown_cases coerceGt h type options fn with ⟨fields, hv⟩ | ⟨-, he⟩ | ⟨-, he⟩
  · right
    have hw : ∃ L, warnContext h fields = { h with log := L } := by
      unfold warnContext
      split
      · exact ⟨_, rfl⟩
      · exact ⟨h.log, rfl⟩
    obtain ⟨L, hL⟩ := hw
    rw [tap_eq_insert_chain coerceGt h type options fn fields hv, hL]
    obtain ⟨T, hT, hlen⟩ := insert_frame coerceGt
      { h with log := L ++ registerCalls 0 h.interceptors (mergedRecord type fn fields) }
      (applyRegisterChain h.interceptors (mergedRecord type fn fields))
    exact ⟨T, _, hT, hlen, insert_thrown coerceGt _ _⟩
  · left
    rw [he]
    exact ⟨rfl, _, rfl⟩
  · left
    rw [he]
    exact ⟨rfl, _, rfl⟩

/-! ### Invocation (C13, C14, C15) -/

theorem createCall_eq (h : Hook) (type : String) :
    _createCall h type
      = (h.compile (compileOptions h type),
        { h with log := h.log ++ [Event.compile (compileOptions h type)] }) := rfl

/-- An invocation through a slot that holds its delegate: `compile` is called once, with the
current taps, interceptors and arguments and the type of the convention. When it returns a
callable, the callable is stored in the slot of the convention and called; when it throws,
the invocation throws and no slot is written. Nothing else changes. -/
theorem invoke_delegate (c : Convention) (hc : c ∈ conventions) (h : Hook) (args : List Val)
    (hslot : c.slot h = c.delegate) :
    (c.invoke h args).hook.log = h.log ++ [Event.compile (compileOptions h c.type)] ∧
    h.SameRegistry (c.invoke h args).hook ∧
    (∀ c' ∈ conventions, c'.type ≠ c.type → c'.slot (c.invoke h args).hook = c'.slot h) ∧
    (∀ f, h.compile (compileOptions h c.type) = .ok f →
      (c.invoke h args).result = .ok (f args) ∧ c.slot (c.invoke h args).hook = .compiled f) ∧
    (∀ e, h.compile (compileOptions h c.type) = .error e →
      (c.invoke h args).result = .error e ∧ c.slot (c.invoke h args).hook = c.delegate) := by
  simp only [conventions, List.mem_cons, List.mem_singleton, List.not_mem_nil, or_false] at hc
  rcases hc with rfl | rfl | rfl
  · simp only at hslot
    cases hcomp : h.compile (compileOptions h "sync") with
    | error e =>
      simp [call, hslot, Callee.invoke, createCall_eq, hcomp, Hook.SameRegistry,
        conventions]
    | ok f =>
      simp [call, hslot, Callee.invoke, createCall_eq, hcomp, Hook.SameRegistry,
        conventions]
  · simp only at hslot
    cases hcomp : h.compile (compileOptions h "async") with
    | error e =>
      simp [callAsync, hslot, Callee.invoke, createCall_eq, hcomp,
        Hook.SameRegistry, conventions]
    | ok f =>
      simp [callAsync, hslot, Callee.invoke, createCall_eq, hcomp,
        Hook.SameRegistry, conventions]
  · simp only at hslot
    cases hcomp : h.compile (compileOptions h "promise") with
    | error e =>
      simp [promise, hslot, Callee.invoke, createCall_eq, hcomp,
        Hook.SameRegistry, conventions]
    | ok f =>
      simp [promise, hslot, Callee.invoke, createCall_eq, hcomp,
        Hook.SameRegistry, conventions]

/-- An invocation through a slot that holds a compiled callable calls it and changes
nothing. -/
theorem invoke_compiled (c : Convention) (hc : c ∈ conventions) (h : Hook) (args : List Val)
    (f : Callable) (hslot : c.slot h = .compiled f) :
    c.invoke h args = ⟨h, .ok (f args)⟩ := by
  simp only [conventions, List.mem_cons, List.mem_singleton, List.not_mem_nil, or_false] at hc
  rcases hc with rfl | rfl | rfl
  · simp only at hslot
    simp [call, hslot, Callee.invoke]
  · simp only at hslot
    simp [callAsync, hslot, Callee.invoke]
  · simp only at hslot
    simp [promise, hslot, Callee.invoke]

/-- The method `intercept` resets the three call slots, appends the interceptor, writes the
taps (as many as before) and the log, and leaves every other field alone. -/
theorem intercept_frame (h : Hook) (interceptor : Interceptor) :
    ∃ T L, intercept h interceptor
        = { _resetCompilation h with
            interceptors := h.interceptors ++ [interceptor], taps := T, log := L } ∧
      T.length = h.taps.length := by
  cases hr : interceptor.register with
  | none => exact ⟨h.taps, h.log, by simp [intercept, hr, _resetCompilation], rfl⟩
  | some r =>
    have hloop := interceptLoop_map r h.interceptors.length h.taps [] h.taps.length h.log
      (Nat.le_refl _)
    simp only [List.length_nil, List.nil_append] at hloop
    exact ⟨h.taps.map r, h.log ++ h.taps.map (Event.register h.interceptors.length),
      by simp [intercept, hr, _resetCompilation, hloop], by simp⟩

/-- Whatever a call slot holds, calling it leaves the taps, the interceptors and every other
field than the call slots and the log alone. -/
theorem invoke_sameRegistry (callee : Callee) (h : Hook) (args : List Val) :
    h.SameRegistry (callee.invoke h args).hook := by
  cases callee with
  | CALL_DELEGATE =>
    cases hc : h.compile (compileOptions h "sync") <;>
      simp [Callee.invoke, createCall_eq, hc, Hook.SameRegistry]
  | CALL_ASYNC_DELEGATE =>
    cases hc : h.compile (compileOptions h "async") <;>
      simp [Callee.invoke, createCall_eq, hc, Hook.SameRegistry]
  | PROMISE_DELEGATE =>
    cases hc : h.compile (compileOptions h "promise") <;>
      simp [Callee.invoke, createCall_eq, hc, Hook.SameRegistry]
  | compiled f => simp [Callee.invoke, Hook.SameRegistry]

theorem coherent_iff (h : Hook) :
    h.Coherent ↔ h.Intact ∧
      ∀ c ∈ conventions, SlotCoherent h (c.slot h) c.delegate c.type := by
  simp [Hook.Coherent, conventions]

theorem convention_eq_of_type {c c' : Convention} (hc : c ∈ conventions)
    (hc' : c' ∈ conventions) (ht : c'.type = c.type) : c' = c := by
  simp only [conventions, List.mem_cons, List.mem_singleton, List.not_mem_nil, or_false]
    at hc hc'
  rcases hc with rfl | rfl | rfl <;> rcases hc' with rfl | rfl | rfl <;>
    first | rfl | (simp at ht)

/-- After a reset of the call slots on a hook whose delegate fields are intact, the hook is
coherent, whatever its taps and interceptors are. -/
theorem coherent_of_reset (h h' : Hook) (hi : h.Intact)
    (hd : h'._call = h._call ∧ h'._callAsync = h._callAsync ∧ h'._promise = h._promise)
    (hs : h'.call = h._call ∧ h'.callAsync = h._callAsync ∧ h'.promise = h._promise) :
    h'.Coherent := by
  obtain ⟨h1, h2, h3⟩ := hi
  refine ⟨⟨by rw [hd.1, h1], by rw [hd.2.1, h2], by rw [hd.2.2, h3]⟩, ?_, ?_, ?_⟩
  · exact Or.inl (by rw [hs.1, h1])
  · exact Or.inl (by rw [hs.2.1, h2])
  · exact Or.inl (by rw [hs.2.2, h3])

theorem tap_coherent (coerceGt : Atom → Int → Bool) (h : Hook) (type : String) (options : Val)
    (fn : Atom) (hco : h.Coherent) : (_tap coerceGt h type options fn).hook.Coherent := by
  rcases tap_frame coerceGt h type options fn with ⟨he, -⟩ | ⟨T, L, he, -, -⟩
  · rw [he]; exact hco
  · rw [he]
    exact coherent_of_reset h _ hco.1 ⟨rfl, rfl, rfl⟩ ⟨rfl, rfl, rfl⟩

theorem intercept_coherent (h : Hook) (interceptor : Interceptor) (hco : h.Coherent) :
    (intercept h interceptor).Coherent := by
  obtain ⟨T, L, he, -⟩ := intercept_frame h interceptor
  rw [he]
  exact coherent_of_reset h _ hco.1 ⟨rfl, rfl, rfl⟩ ⟨rfl, rfl, rfl⟩

theorem compileOptions_same {h h' : Hook} (hs : h.SameRegistry h') (type : String) :
    compileOptions h' type = compileOptions h type := by
  obtain ⟨h1, -, h3, h4, -⟩ := hs
  simp [compileOptions, h1, h3, h4]

theorem invoke_coherent (c : Convention) (hc : c ∈ conventions) (h : Hook) (args : List Val)
    (hco : h.Coherent) : (c.invoke h args).hook.Coherent := by
  rw [coherent_iff] at hco ⊢
  obtain ⟨hi, hslots⟩ := hco
  rcases hslots c hc with hdel | ⟨f, hf, -⟩
  · obtain ⟨-, hsame, hother, hok, herr⟩ := invoke_delegate c hc h args hdel
    have hsame' := hsame
    obtain ⟨-, -, -, -, hcomp, h6, h7, h8⟩ := hsame
    refine ⟨⟨by rw [h6, hi.1], by rw [h7, hi.2.1], by rw [h8, hi.2.2]⟩, ?_⟩
    intro c' hc'
    by_cases ht : c'.type = c.type
    · have hcc := convention_eq_of_type hc hc' ht
      subst hcc
      cases hres : h.compile (compileOptions h c'.type) with
      | error e => exact Or.inl (herr e hres).2
      | ok f =>
        refine Or.inr ⟨f, (hok f hres).2, ?_⟩
        rw [hcomp, compileOptions_same hsame', hres]
    · rw [hother c' hc' ht]
      rcases hslots c' hc' with hd | ⟨f, hf, hcf⟩
      · exact Or.inl hd
      · exact Or.inr ⟨f, hf, by rw [hcomp, compileOptions_same hsame', hcf]⟩
  · rw [invoke_compiled c hc h args f hf]
    exact ⟨hi, hslots⟩

theorem mem_conventions_call : (⟨call, Hook.call, .CALL_DELEGATE, "sync"⟩ : Convention)
    ∈ conventions := by simp [conventions]

theorem mem_conventions_callAsync :
    (⟨callAsync, Hook.callAsync, .CALL_ASYNC_DELEGATE, "async"⟩ : Convention)
      ∈ conventions := by simp [conventions]

theorem mem_conventions_promise :
    (⟨promise, Hook.promise, .PROMISE_DELEGATE, "promise"⟩ : Convention)
      ∈ conventions := by simp [conventions]

theorem apply_coherent (coerceGt : Atom → Int → Bool) (op : Op) (h : Hook)
    (hco : h.Coherent) : (op.apply coerceGt h).Coherent := by
  cases op with
  | tap options fn => exact tap_coherent coerceGt h "sync" options fn hco
  | tapAsync options fn => exact tap_coherent coerceGt h "async" options fn hco
  | tapPromise options fn => exact tap_coherent coerceGt h "promise" options fn hco
  | intercept interceptor => exact intercept_coherent h interceptor hco
  | call args => exact invoke_coherent _ mem_conventions_call h args hco
  | callAsync args => exact invoke_coherent _ mem_conventions_callAsync h args hco
  | promise args => exact invoke_coherent _ mem_conventions_promise h args hco

theorem run_coherent (coerceGt : Atom → Int → Bool) :
    ∀ (ops : List Op) (h : Hook), h.Coherent → (run coerceGt h ops).Coherent := by
  intro ops
  induction ops with
  | nil => intro h hco; exact hco
  | cons op rest ih => intro h hco; exact ih _ (apply_coherent coerceGt op h hco)

theorem newWith_coherent (compile : CompileOptions → Except Exn Callable) (args : List String)
    (name : Option String) : (Hook.newWith compile args name).Coherent :=
  ⟨⟨rfl, rfl, rfl⟩, Or.inl rfl, Or.inl rfl, Or.inl rfl⟩

/-- Every hook state that can arise is coherent. -/
theorem reachable_coherent (coerceGt : Atom → Int → Bool) {h : Hook}
    (hr : Reachable coerceGt h) : h.Coherent := by
  obtain ⟨compile, args, name, ops, rfl⟩ := hr
  exact run_coherent coerceGt ops _ (newWith_coherent compile args name)

/-- C13. On a hook state that can arise, after a `tap`, `tapAsync` or `tapPromise` that does
not throw, and after an `intercept`, the three call slots hold their delegates ("not yet
compiled"), whatever they held before. Hence the next invocation of any of the three entry
points calls `compile` (once, for the taps and interceptors as they are then): the number of
`compile` calls in the log grows by one. -/
theorem registration_resets_slots (coerceGt : Atom → Int → Bool) (h h' : Hook)
    (hr : Reachable coerceGt h)
    (hmut : (∃ entry type options fn,
        (entry, type) ∈ [(tap coerceGt, "sync"), (tapAsync coerceGt, "async"),
          (tapPromise coerceGt, "promise")] ∧
        (entry h options fn).thrown = none ∧ h' = (entry h options fn).hook) ∨
      (∃ interceptor, h' = intercept h interceptor)) :
    (h'.call = .CALL_DELEGATE ∧ h'.callAsync = .CALL_ASYNC_DELEGATE ∧
      h'.promise = .PROMISE_DELEGATE) ∧
    ∀ c ∈ conventions, ∀ args : List Val,
      (c.invoke h' args).hook.log = h'.log ++ [Event.compile (compileOptions h' c.type)] ∧
      ((c.invoke h' args).hook.log.filter Event.isCompile).length
        = (h'.log.filter Event.isCompile).length + 1 := by
  have hi := (reachable_coherent coerceGt hr).1
  have hslots : h'.call = .CALL_DELEGATE ∧ h'.callAsync = .CALL_ASYNC_DELEGATE ∧
      h'.promise = .PROMISE_DELEGATE := by
    rcases hmut with ⟨entry, type, options, fn, hentry, hok, rfl⟩ | ⟨interceptor, rfl⟩
    · rw [entry_eq_tap coerceGt hentry] at hok ⊢
      simp only at hok ⊢
      rcases tap_frame coerceGt h type options fn with ⟨-, m, hm⟩ | ⟨T, L, he, -, -⟩
      · rw [hm] at hok
        exact Option.noConfusion hok
      · rw [he]
        exact ⟨hi.1, hi.2.1, hi.2.2⟩
    · obtain ⟨T, L, he, -⟩ := intercept_frame h interceptor
      rw [he]
      exact ⟨hi.1, hi.2.1, hi.2.2⟩
  refine ⟨hslots, ?_⟩
  intro c hc args
  have hdel : c.slot h' = c.delegate := by
    simp only [conventions, List.mem_cons, List.mem_singleton, List.not_mem_nil, or_false]
      at hc
    rcases hc with rfl | rfl | rfl
    · exact hslots.1
    · exact hslots.2.1
    · exact hslots.2.2
  have hlog := (invoke_delegate c hc h' args hdel).1
  refine ⟨hlog, ?_⟩
  rw [hlog]
  simp [List.filter_append, Event.isCompile]

/-- C13 at a concrete hook: after `call()` has compiled the sync slot, `tap("A", f)` puts the
delegates back, and the next invocations call `compile` again. -/
theorem registration_resets_slots_witness :
    ((tap (fun _ _ => false)
        (run (fun _ _ => false)
          (Hook.newWith (fun o => .ok (fun _ => .atom (.prim (.num o.taps.length)))) [] none)
          [.call []])
        (.atom (.prim (.str "A"))) (.fn 1 "f")).hook.call = .CALL_DELEGATE ∧
      (tap (fun _ _ => false)
        (run (fun _ _ => false)
          (Hook.newWith (fun o => .ok (fun _ => .atom (.prim (.num o.taps.length)))) [] none)
          [.call []])
        (.atom (.prim (.str "A"))) (.fn 1 "f")).hook.callAsync = .CALL_ASYNC_DELEGATE ∧
      (tap (fun _ _ => false)
        (run (fun _ _ => false)
          (Hook.newWith (fun o => .ok (fun _ => .atom (.prim (.num o.taps.length)))) [] none)
          [.call []])
        (.atom (.prim (.str "A"))) (.fn 1 "f")).hook.promise = .PROMISE_DELEGATE) :=
  (registration_resets_slots (fun _ _ => false)
    (run (fun _ _ => false)
      (Hook.newWith (fun o => .ok (fun _ => .atom (.prim (.num o.taps.length)))) [] none)
      [.call []]) _
    ⟨_, [], none, [.call []], rfl⟩
    (Or.inl ⟨tap (fun _ _ => false), "sync", .atom (.prim (.str "A")), .fn 1 "f",
      by simp, by decide, rfl⟩)).1

/-- C14, as the code has it. For each calling convention: when the slot holds the delegate
and `compile` returns a callable `f` for the current registry, the first invocation calls
`compile` exactly once, with the type of the convention, stores `f` in the slot and returns
`f(args)`; a second invocation right after it leaves the hook, and so the log, as it is
(`compile` is not called) and returns what the stored `f` returns. When the slot holds the
delegate and `compile` throws, the invocation throws that error, the slot still holds the
delegate, and the next invocation calls `compile` again. When the slot holds a compiled
callable, an invocation calls it and `compile` is not called. -/
theorem invoke_twice_compiles_once (c : Convention) (hc : c ∈ conventions) (h : Hook)
    (args1 args2 : List Val) :
    (c.slot h = c.delegate → ∀ f, h.compile (compileOptions h c.type) = .ok f →
      (c.invoke h args1).result = .ok (f args1) ∧
      (c.invoke h args1).hook.log = h.log ++ [Event.compile (compileOptions h c.type)] ∧
      c.slot (c.invoke h args1).hook = .compiled f ∧
      c.invoke (c.invoke h args1).hook args2 = ⟨(c.invoke h args1).hook, .ok (f args2)⟩) ∧
    (c.slot h = c.delegate → ∀ e, h.compile (compileOptions h c.type) = .error e →
      (c.invoke h args1).result = .error e ∧
      c.slot (c.invoke h args1).hook = c.delegate ∧
      (c.invoke (c.invoke h args1).hook args2).hook.log
        = h.log ++ [Event.compile (compileOptions h c.type),
          Event.compile (compileOptions h c.type)]) ∧
    (∀ g, c.slot h = .compiled g → c.invoke h args1 = ⟨h, .ok (g args1)⟩) := by
  refine ⟨?_, ?_, ?_⟩
  · intro hslot f hf
    obtain ⟨hlog, -, -, hok, -⟩ := invoke_delegate c hc h args1 hslot
    obtain ⟨hres, hstored⟩ := hok f hf
    exact ⟨hres, hlog, hstored, invoke_compiled c hc _ args2 f hstored⟩
  · intro hslot e he
    obtain ⟨hlog, hsame, -, -, herr⟩ := invoke_delegate c hc h args1 hslot
    obtain ⟨hres, hstay⟩ := herr e he
    refine ⟨hres, hstay, ?_⟩
    rw [(invoke_delegate c hc _ args2 hstay).1, hlog, compileOptions_same hsame]
    simp
  · intro g hg
    exact invoke_compiled c hc h args1 g hg

/-- C14 as stated fails when `compile` throws. On a new hook of the base class, whose
`compile` is abstract, the sync slot holds the delegate, and two consecutive calls of `call`
call `compile` twice. -/
theorem invoke_twice_abstract_counterexample :
    (Hook.new [] none).call = .CALL_DELEGATE ∧
    ((call (call (Hook.new [] none) []).hook []).hook.log.filter Event.isCompile).length = 2 :=
  ⟨rfl, by decide⟩

/-- C14 amended, at a concrete hook: with a `compile` that returns a callable, the second
`callAsync` leaves the hook as the first one left it. -/
theorem invoke_twice_compiles_once_witness :
    callAsync
        (callAsync
          (Hook.newWith (fun o => .ok (fun _ => .atom (.prim (.num o.taps.length)))) [] none)
          []).hook [.atom (.prim (.num 7))]
      = ⟨(callAsync
          (Hook.newWith (fun o => .ok (fun _ => .atom (.prim (.num o.taps.length)))) [] none)
          []).hook, .ok (.atom (.prim (.num 0)))⟩ :=
  ((invoke_twice_compiles_once ⟨callAsync, Hook.callAsync, .CALL_ASYNC_DELEGATE, "async"⟩
    mem_conventions_callAsync
    (Hook.newWith (fun o => .ok (fun _ => .atom (.prim (.num o.taps.length)))) [] none)
    [] [.atom (.prim (.num 7))]).1 rfl _ rfl).2.2.2

/-- C15. On a hook state that can arise, invoking the entry point of one calling convention
leaves the slots of the two other conventions, the taps and the interceptors exactly as they
were, and the log either unchanged or longer by one call of `compile` with the type of the
convention invoked. -/
theorem invocation_changes_own_slot_only (coerceGt : Atom → Int → Bool) (h : Hook)
    (hr : Reachable coerceGt h) (c : Convention) (hc : c ∈ conventions) (args : List Val) :
    (∀ c' ∈ conventions, c' ≠ c → c'.slot (c.invoke h args).hook = c'.slot h) ∧
    (c.invoke h args).hook.taps = h.taps ∧
    (c.invoke h args).hook.interceptors = h.interceptors ∧
    ((c.invoke h args).hook.log = h.log ∨
      (c.invoke h args).hook.log = h.log ++ [Event.compile (compileOptions h c.type)]) := by
  have hco := (coherent_iff h).1 (reachable_coherent coerceGt hr)
  rcases hco.2 c hc with hdel | ⟨f, hf, -⟩
  · obtain ⟨hlog, hsame, hother, -, -⟩ := invoke_delegate c hc h args hdel
    refine ⟨?_, hsame.2.2.1, hsame.2.2.2.1, Or.inr hlog⟩
    intro c' hc' hne
    exact hother c' hc' (fun ht => hne (convention_eq_of_type hc hc' ht))
  · rw [invoke_compiled c hc h args f hf]
    exact ⟨fun _ _ _ => rfl, rfl, rfl, Or.inl rfl⟩

/-- C15 at a concrete hook: after `tap("A", f)` and `call()`, a call of `promise` leaves the
taps and the interceptors as they were. -/
theorem invocation_changes_own_slot_only_witness :
    (promise
        (run (fun _ _ => false)
          (Hook.newWith (fun o => .ok (fun _ => .atom (.prim (.num o.taps.length)))) [] none)
          [.tap (.atom (.prim (.str "A"))) (.fn 1 "f"), .call []]) []).hook.taps
      = (run (fun _ _ => false)
          (Hook.newWith (fun o => .ok (fun _ => .atom (.prim (.num o.taps.length)))) [] none)
          [.tap (.atom (.prim (.str "A"))) (.fn 1 "f"), .call []]).taps :=
  (invocation_changes_own_slot_only (fun _ _ => false) _
    ⟨_, [], none, [.tap (.atom (.prim (.str "A"))) (.fn 1 "f"), .call []], rfl⟩
    ⟨promise, Hook.promise, .PROMISE_DELEGATE, "promise"⟩ mem_conventions_promise []).2.1

/-! ### Failed registrations, and the hook over time (C16, C19, C20) -/

/-- C19. A registration through `tap`, `tapAsync` or `tapPromise` that throws
"Invalid tap options" or "Missing name for tap" returns the hook exactly as it was: the taps,
the interceptors, the three call slots (a compiled slot stays compiled) and the log, so that no
`register` function has been called. -/
theorem failed_validation_leaves_hook (coerceGt : Atom → Int → Bool) (h : Hook)
    (options : Val) (fn : Atom) (entry : Hook → Val → Atom → Outcome) (type : String)
    (hentry : (entry, type) ∈
      [(tap coerceGt, "sync"), (tapAsync coerceGt, "async"), (tapPromise coerceGt, "promise")])
    (hfail : (entry h options fn).thrown = some (.Error "Invalid tap options") ∨
      (entry h options fn).thrown = some (.Error "Missing name for tap")) :
    (entry h options fn).hook = h ∧
    (entry h options fn).hook.taps = h.taps ∧
    (entry h options fn).hook.interceptors = h.interceptors ∧
    (entry h options fn).hook.call = h.call ∧
    (entry h options fn).hook.callAsync = h.callAsync ∧
    (entry h options fn).hook.promise = h.promise ∧
    (entry h options fn).hook.log = h.log := by
  rw [entry_eq_tap coerceGt hentry] at hfail ⊢
  simp only at hfail ⊢
  have hh : (_tap coerceGt h type options fn).hook = h := by
    rcases tap_frame coerceGt h type options fn with ⟨he, -⟩ | ⟨T, L, -, -, hthrown⟩
    · exact he
    · exfalso
      rcases hthrown with ht | ht <;> rw [ht] at hfail <;> simp at hfail
  rw [hh]
  exact ⟨rfl, rfl, rfl, rfl, rfl, rfl, rfl⟩

/-- C19 at a concrete hook: after `call()` has compiled the sync slot, `tap(" ", f)` throws
"Missing name for tap" and returns the hook as it was, the compiled slot included. -/
theorem failed_validation_leaves_hook_witness :
    (tap (fun _ _ => false)
        (run (fun _ _ => false)
          (Hook.newWith (fun o => .ok (fun _ => .atom (.prim (.num o.taps.length)))) [] none)
          [.call []])
        (.atom (.prim (.str " "))) (.fn 1 "f")).hook
      = run (fun _ _ => false)
          (Hook.newWith (fun o => .ok (fun _ => .atom (.prim (.num o.taps.length)))) [] none)
          [.call []] :=
  (failed_validation_leaves_hook (fun _ _ => false) _ (.atom (.prim (.str " "))) (.fn 1 "f")
    (tap (fun _ _ => false)) "sync" (by simp) (Or.inr (by decide))).1

/-- C20. On every hook state that can arise (any sequence of registrations, successful or
not, interceptions and invocations, from construction), each call slot holds its delegate
("not yet compiled") or exactly the callable that `compile` returns for the current taps,
interceptors and arguments and the type of the slot. Hence every invocation returns what the
callable freshly compiled for the current registry returns on the same arguments, and throws
what `compile` throws when it throws. -/
theorem cache_coherence (coerceGt : Atom → Int → Bool) (h : Hook)
    (hr : Reachable coerceGt h) (c : Convention) (hc : c ∈ conventions) :
    (c.slot h = c.delegate ∨
      ∃ f, c.slot h = .compiled f ∧ h.compile (compileOptions h c.type) = .ok f) ∧
    ∀ args : List Val,
      (c.invoke h args).result
        = (h.compile (compileOptions h c.type)).map (fun f => f args) := by
  have hco := (coherent_iff h).1 (reachable_coherent coerceGt hr)
  refine ⟨hco.2 c hc, ?_⟩
  intro args
  rcases hco.2 c hc with hdel | ⟨f, hf, hcf⟩
  · obtain ⟨-, -, -, hok, herr⟩ := invoke_delegate c hc h args hdel
    cases hres : h.compile (compileOptions h c.type) with
    | error e => rw [(herr e hres).1]; rfl
    | ok f => rw [(hok f hres).1]; rfl
  · rw [invoke_compiled c hc h args f hf, hcf]
    rfl

/-- C20 at a concrete hook: after `call()`, `tap("A", f)` and `call()` again, the sync slot
is coherent and `call` returns what a fresh compilation returns. -/
theorem cache_coherence_witness :
    (call
        (run (fun _ _ => false)
          (Hook.newWith (fun o => .ok (fun _ => .atom (.prim (.num o.taps.length)))) [] none)
          [.call [], .tap (.atom (.prim (.str "A"))) (.fn 1 "f"), .call []]) []).result
      = ((run (fun _ _ => false)
          (Hook.newWith (fun o => .ok (fun _ => .atom (.prim (.num o.taps.length)))) [] none)
          [.call [], .tap (.atom (.prim (.str "A"))) (.fn 1 "f"), .call []]).compile
            (compileOptions (run (fun _ _ => false)
              (Hook.newWith (fun o => .ok (fun _ => .atom (.prim (.num o.taps.length)))) []
                none)
              [.call [], .tap (.atom (.prim (.str "A"))) (.fn 1 "f"), .call []]) "sync")).map
          (fun f => f []) :=
  (cache_coherence (fun _ _ => false) _
    ⟨_, [], none, [.call [], .tap (.atom (.prim (.str "A"))) (.fn 1 "f"), .call []], rfl⟩
    ⟨call, Hook.call, .CALL_DELEGATE, "sync"⟩ mem_conventions_call).2 []

theorem insert_nil_ok (coerceGt : Atom → Int → Bool) (h : Hook) (item : Val)
    (ht : h.taps = []) (hitem : item.isNullish = false) :
    (_insert coerceGt h item).thrown = none := by
  obtain ⟨b, hb⟩ := get_of_not_nullish hitem "before"
  obtain ⟨s, hs⟩ := get_of_not_nullish hitem "stage"
  simp [_insert, hb, hs, _resetCompilation, ht, insertLoop]

/-- A registration that does not throw leaves at least one tap; one that throws leaves
`isUsed()` as it was. -/
theorem tap_isUsed (coerceGt : Atom → Int → Bool) (h : Hook) (type : String) (options : Val)
    (fn : Atom) :
    isUsed (_tap coerceGt h type options fn).hook
      = (isUsed h || (_tap coerceGt h type options fn).thrown.isNone) := by
  rcases tap_thrown_cases coerceGt h type options fn with ⟨fields, hv⟩ | ⟨-, he⟩ | ⟨-, he⟩
  · have hw : ∃ L, warnContext h fields = { h with log := L } := by
      unfold warnContext
      split
      · exact ⟨_, rfl⟩
      · exact ⟨h.log, rfl⟩
    obtain ⟨L, hL⟩ := hw
    rw [tap_eq_insert_chain coerceGt h type options fn fields hv, hL]
    generalize hH : ({ { h with log := L } with
      log := ({ h with log := L } : Hook).log
        ++ registerCalls 0 h.interceptors (mergedRecord type fn fields) } : Hook) = H
    have hHt : H.taps = h.taps := by rw [← hH]
    have hHi : H.interceptors = h.interceptors := by rw [← hH]
    have hnn : h.interceptors = [] →
        (applyRegisterChain h.interceptors (mergedRecord type fn fields)).isNullish = false := by
      intro hi
      rw [hi]
      rfl
    generalize applyRegisterChain h.interceptors (mergedRecord type fn fields) = item at hnn ⊢
    rcases insert_thrown coerceGt H item with hok | hthrow
    · obtain ⟨p1, p2, -, heq⟩ := insert_shape coerceGt H item hok
      rw [heq]
      simp [isUsed, _resetCompilation]
    · obtain ⟨T, hT, hlen⟩ := insert_frame coerceGt H item
      rw [hT, hthrow]
      simp only [isUsed, _resetCompilation, hHi, Option.isNone_some, Bool.or_false]
      rw [hHt] at hlen
      by_cases hi : h.interceptors.length > 0
      · simp [hi]
      · by_cases ht : h.taps.length > 0
        · have : T.length > 0 := lt_of_lt_of_le ht hlen
          simp [ht, this]
        · exfalso
          have ht0 : H.taps = [] := by
            rw [hHt]
            exact List.length_eq_zero.1 (by omega)
          have hi0 : h.interceptors = [] := List.length_eq_zero.1 (by omega)
          have hnone := insert_nil_ok coerceGt H item ht0 (hnn hi0)
          rw [hthrow] at hnone
          exact absurd hnone (by simp)
  · rw [he]; simp
  · rw [he]; simp

theorem apply_isUsed (coerceGt : Atom → Int → Bool) (op : Op) (h : Hook) :
    isUsed (op.apply coerceGt h) = (isUsed h || op.registers coerceGt h) := by
  cases op with
  | tap options fn => exact tap_isUsed coerceGt h "sync" options fn
  | tapAsync options fn => exact tap_isUsed coerceGt h "async" options fn
  | tapPromise options fn => exact tap_isUsed coerceGt h "promise" options fn
  | intercept interceptor =>
    obtain ⟨T, L, heq, -⟩ := intercept_frame h interceptor
    simp only [Op.apply, Op.registers, heq]
    simp [isUsed, _resetCompilation]
  | call args =>
    have hs := invoke_sameRegistry h.call h args
    simp only [Op.apply, Op.registers, call, isUsed, hs.2.2.1, hs.2.2.2.1, Bool.or_false]
  | callAsync args =>
    have hs := invoke_sameRegistry h.callAsync h args
    simp only [Op.apply, Op.registers, callAsync, isUsed, hs.2.2.1, hs.2.2.2.1, Bool.or_false]
  | promise args =>
    have hs := invoke_sameRegistry h.promise h args
    simp only [Op.apply, Op.registers, promise, isUsed, hs.2.2.1, hs.2.2.2.1, Bool.or_false]

theorem run_append (coerceGt : Atom → Int → Bool) (ops more : List Op) :
    ∀ h : Hook, run coerceGt h (ops ++ more) = run coerceGt (run coerceGt h ops) more := by
  induction ops with
  | nil => intro h; rfl
  | cons op rest ih => intro h; exact ih (op.apply coerceGt h)

theorem run_isUsed (coerceGt : Atom → Int → Bool) (ops : List Op) :
    ∀ h : Hook, isUsed (run coerceGt h ops) = true ↔
      isUsed h = true ∨ 0 < registrations coerceGt h ops := by
  induction ops with
  | nil => intro h; simp [run, registrations]
  | cons op rest ih =>
    intro h
    simp only [run, registrations]
    rw [ih (op.apply coerceGt h), apply_isUsed]
    cases isUsed h <;> cases op.registers coerceGt h <;> simp

/-- C16. On a hook built by the constructor and taken through any sequence of registrations
(successful or not), interceptions and invocations, `isUsed()` returns true if and only if at
least one `tap`, `tapAsync` or `tapPromise` has returned without throwing or `intercept` has
been called. It is false on the new hook, true after any operation that registers, and once
true it stays true whatever operations follow. -/
theorem isUsed_iff_registered (coerceGt : Atom → Int → Bool)
    (compile : CompileOptions → Except Exn Callable) (args : List String)
    (name : Option String) (ops : List Op) :
    (isUsed (run coerceGt (Hook.newWith compile args name) ops) = true ↔
      0 < registrations coerceGt (Hook.newWith compile args name) ops) ∧
    isUsed (Hook.newWith compile args name) = false ∧
    (∀ op : Op, op.registers coerceGt (run coerceGt (Hook.newWith compile args name) ops) = true →
      isUsed (run coerceGt (Hook.newWith compile args name) (ops ++ [op])) = true) ∧
    (∀ more : List Op, isUsed (run coerceGt (Hook.newWith compile args name) ops) = true →
      isUsed (run coerceGt (Hook.newWith compile args name) (ops ++ more)) = true) := by
  have hnew : isUsed (Hook.newWith compile args name) = false := rfl
  refine ⟨?_, hnew, ?_, ?_⟩
  · rw [run_isUsed, hnew]
    simp
  · intro op hop
    rw [run_append]
    simp only [run]
    rw [apply_isUsed, hop]
    simp
  · intro more hused
    rw [run_append, run_isUsed]
    exact Or.inl hused


/-! ### Order independence and the shape of an insertion (C17, C18) -/

theorem filter_stage_length_le_one (s : Int) :
    ∀ seq : List Val, (seq.map itemStage).Nodup →
      (seq.filter (fun t => itemStage t = s)).length ≤ 1 := by
  intro seq
  induction seq with
  | nil => intro _; simp
  | cons a rest ih =>
    intro hnd
    rw [List.map_cons, List.nodup_cons] at hnd
    by_cases ha : itemStage a = s
    · have hrest : rest.filter (fun t => itemStage t = s) = [] := by
        rw [List.filter_eq_nil_iff]
        intro t ht hts
        simp only [decide_eq_true_eq] at hts
        exact hnd.1 (by rw [ha, ← hts]; exact List.mem_map_of_mem _ ht)
      simp [List.filter_cons, ha, hrest]
    · simpa [List.filter_cons, ha] using ih hnd.2

theorem perm_eq_of_length_le_one {l1 l2 : List Val} (hp : l1.Perm l2) (hl : l1.length ≤ 1) :
    l1 = l2 := by
  match l1, hl with
  | [], _ => exact (List.nil_perm.1 hp).symm
  | [a], _ => exact List.singleton_perm.1 hp

/-- C17. Records that carry no `before` and whose stages are integers, pairwise distinct
(a missing stage counting as 0), inserted into the registry of a new hook: for every two
orders of insertion of the same records no call throws and the final taps are the same list,
which holds the inserted records by strictly ascending stage. Scenario: registering A
(stage 5) and B (stage 1) on a new hook gives the order B, A whichever is registered first. -/
theorem insert_order_independent (coerceGt : Atom → Int → Bool) (args : List String)
    (name : Option String) (seq1 seq2 : List Val) (hperm : seq1.Perm seq2)
    (hseq : ∀ t ∈ seq1, t.isStageRecord = true) (hdistinct : (seq1.map itemStage).Nodup) :
    (insertAll coerceGt (Hook.new args name) seq1).thrown = none ∧
    (insertAll coerceGt (Hook.new args name) seq2).thrown = none ∧
    (insertAll coerceGt (Hook.new args name) seq1).hook.taps
      = (insertAll coerceGt (Hook.new args name) seq2).hook.taps ∧
    (insertAll coerceGt (Hook.new args name) seq1).hook.taps.Pairwise
      (fun a b => itemStage a < itemStage b) ∧
    (insertAll coerceGt (Hook.new args name) seq1).hook.taps.Perm seq1 ∧
    (∀ fn : Atom,
      (tap coerceGt
          (tap coerceGt (Hook.new args name)
            (.obj [("name", .prim (.str "A")), ("stage", .prim (.num 5))]) fn).hook
          (.obj [("name", .prim (.str "B")), ("stage", .prim (.num 1))]) fn).hook.taps.map nameOf
        = [.prim (.str "B"), .prim (.str "A")] ∧
      (tap coerceGt
          (tap coerceGt (Hook.new args name)
            (.obj [("name", .prim (.str "B")), ("stage", .prim (.num 1))]) fn).hook
          (.obj [("name", .prim (.str "A")), ("stage", .prim (.num 5))]) fn).hook.taps
        = (tap coerceGt
          (tap coerceGt (Hook.new args name)
            (.obj [("name", .prim (.str "A")), ("stage", .prim (.num 5))]) fn).hook
          (.obj [("name", .prim (.str "B")), ("stage", .prim (.num 1))]) fn).hook.taps) := by
  have hseq2 : ∀ t ∈ seq2, t.isStageRecord = true := fun t ht => hseq t (hperm.mem_iff.2 ht)
  have h1 := insertAll_stage coerceGt seq1 (Hook.new args name) (by simp [Hook.new])
    (by simp [Hook.new]) hseq
  have h2 := insertAll_stage coerceGt seq2 (Hook.new args name) (by simp [Hook.new])
    (by simp [Hook.new]) hseq2
  have hp1 : (insertAll coerceGt (Hook.new args name) seq1).hook.taps.Perm seq1 := by
    simpa [Hook.new] using h1.2.2.1
  have hf1 : ∀ s : Int, (insertAll coerceGt (Hook.new args name) seq1).hook.taps.filter
      (fun t => itemStage t = s) = seq1.filter (fun t => itemStage t = s) := by
    simpa [Hook.new] using h1.2.2.2
  have hf2 : ∀ s : Int, (insertAll coerceGt (Hook.new args name) seq2).hook.taps.filter
      (fun t => itemStage t = s) = seq2.filter (fun t => itemStage t = s) := by
    simpa [Hook.new] using h2.2.2.2
  refine ⟨h1.1, h2.1, ?_, ?_, hp1, ?_⟩
  · apply eq_of_sorted_of_filter_eq _ _ h1.2.1 h2.2.1
    intro s
    rw [hf1 s, hf2 s]
    exact perm_eq_of_length_le_one (hperm.filter _) (filter_stage_length_le_one s seq1 hdistinct)
  · have hnd : ((insertAll coerceGt (Hook.new args name) seq1).hook.taps.map itemStage).Nodup :=
      ((hp1.map itemStage).nodup_iff).2 hdistinct
    have hne := List.pairwise_map.1 hnd
    exact (h1.2.1.and hne).imp (fun hab => lt_of_le_of_ne hab.1 hab.2)
  · intro fn
    constructor <;>
    simp [tap, _tap, Hook.new, Val.typeof, Atom.typeof, Val.get, objectAssign, ownEnumerable,
      setKey, _runRegisterInterceptors, registerLoop, _insert, _resetCompilation, insertLoop,
      beforeSet, stageOf, getAt, setAt, Atom.truthy, Atom.gt, JSSet.has, JSSet.delete,
      JSSet.size, nameOf, List.lookup]

/-- C17 at two concrete orders: the records A (stage 5), B (stage 1) and C (stage 3), inserted
in the orders A, B, C and C, B, A, leave the same taps. -/
theorem insert_order_independent_witness :
    (insertAll (fun _ _ => false) (Hook.new [] none)
      [Val.obj [("name", .prim (.str "A")), ("stage", .prim (.num 5))],
        Val.obj [("name", .prim (.str "B")), ("stage", .prim (.num 1))],
        Val.obj [("name", .prim (.str "C")), ("stage", .prim (.num 3))]]).hook.taps
      = (insertAll (fun _ _ => false) (Hook.new [] none)
      [Val.obj [("name", .prim (.str "C")), ("stage", .prim (.num 3))],
        Val.obj [("name", .prim (.str "B")), ("stage", .prim (.num 1))],
        Val.obj [("name", .prim (.str "A")), ("stage", .prim (.num 5))]]).hook.taps :=
  (insert_order_independent (fun _ _ => false) [] none _ _
    (by decide) (by decide) (by decide)).2.2.1

/-- C18. On a registry of `n` taps, none of them `undefined` or `null`, and for a new record
that is neither: `_insert` does not throw, and the taps after it are the `n` old taps with
the new record put in at one index `k`, `0 ≤ k ≤ n`: the first `k` old taps, the record, the
other `n - k` old taps. The list has `n + 1` elements, and removing the element at `k` gives
the old list back, so no tap is lost, duplicated, overwritten or reordered. -/
theorem insert_single_index (coerceGt : Atom → Int → Bool) (h : Hook) (item : Val)
    (htaps : ∀ x ∈ h.taps, x.isNullish = false) (hitem : item.isNullish = false) :
    (_insert coerceGt h item).thrown = none ∧
    (_insert coerceGt h item).hook.taps.length = h.taps.length + 1 ∧
    ∃ k, k ≤ h.taps.length ∧
      (_insert coerceGt h item).hook.taps = h.taps.take k ++ item :: h.taps.drop k ∧
      (_insert coerceGt h item).hook.taps.eraseIdx k = h.taps := by
  obtain ⟨p1, p2, hsplit, heq, -, -⟩ := insert_split coerceGt h item htaps hitem
  rw [heq, hsplit]
  refine ⟨rfl, by simp; omega, p1.length, by simp, by simp, ?_⟩
  simp [List.eraseIdx_append_of_length_le]

/-- C18 at a concrete registry: into the taps B, A (stages 1 and 5) the record C (stage 3)
goes in at index 1. -/
theorem insert_single_index_witness :
    (_insert (fun _ _ => false)
      { Hook.new [] none with
        taps := [Val.obj [("name", .prim (.str "B")), ("stage", .prim (.num 1))],
          Val.obj [("name", .prim (.str "A")), ("stage", .prim (.num 5))]] }
      (Val.obj [("name", .prim (.str "C")), ("stage", .prim (.num 3))])).hook.taps.length
      = 2 + 1 :=
  (insert_single_index (fun _ _ => false)
    { Hook.new [] none with
      taps := [Val.obj [("name", .prim (.str "B")), ("stage", .prim (.num 1))],
        Val.obj [("name", .prim (.str "A")), ("stage", .prim (.num 5))]] }
    (Val.obj [("name", .prim (.str "C")), ("stage", .prim (.num 3))])
    (by decide) (by decide)).2.1

end Tapable
